import Mathlib

/-! Ambrosio-Tortorelli solver of at.cpp.

A shallow embedding of src/at.cpp: the operator assembly, the three nested
loops of main (lambda schedule, epsilon annealing, coordinate descent), the
energy block and the two form-to-image mappers.

Conventions of the embedding.

* A finite C++ double is the rational number it holds. The scalar operations
  that main itself performs on the control path (the division of the lambda
  schedule, the doubling, halving and the product `h*h` of the annealing, the
  product of the pixel scaling, the division that reads the input image) are
  rounded by `rn`, the binary64 rounding to nearest with ties to even.
  Infinities and NaN are not modelled.
* The algebra of forms and operators is the library's and is kept exact.
* The energy block is given twice: as the exact values of its sums (the formulas
  the program evaluates) and as the doubles that its loops accumulate, every
  operation of main rounded by `rn`.
* A k-form is a function on the cell indices `Fin n`; an operator between forms
  is a `Matrix` over the rationals.
* The discrete exterior calculus operators (derivatives and Hodge stars) come
  from the DGtal library, which is not part of the program text; they are the
  fields of `Calculus` and are arbitrary unless a theorem says otherwise.
* The two sparse solvers (`compute` followed by `solve`) are arbitrary
  functions from a matrix and a right-hand side to a form.
* A while loop is a function with fuel that answers `none` when the fuel is
  used up before the loop condition fails.
-/

namespace AT

/-! ## Forms, operators, calculus -/

/-- A k-form of the complex: one scalar per k-cell, indexed as `myContainer`. -/
abbrev Form (n : ℕ) := Fin n → ℚ

/-- A linear operator taking forms on `n` cells to forms on `m` cells. -/
abbrev LinOp (m n : ℕ) := Matrix (Fin m) (Fin n) ℚ

/-- The operators main asks the calculus for (lines 193-209), on a complex with
`n0` 0-cells, `n1` 1-cells and `n2` 2-cells. -/
structure Calculus (n0 n1 n2 : ℕ) where
  primal_D0 : LinOp n1 n0
  primal_h0 : LinOp n0 n0
  primal_h1 : LinOp n1 n1
  dual_D1 : LinOp n0 n1
  dual_h2 : LinOp n0 n0
  primal_D1 : LinOp n2 n1
  primal_h2 : LinOp n2 n2
  dual_D0 : LinOp n1 n2
  dual_h1 : LinOp n1 n1

/-- The two factorise-then-solve capabilities, `solver_u` and `solver_v`. -/
structure Solvers (n0 n1 : ℕ) where
  solve_u : LinOp n0 n0 → Form n0 → Form n0
  solve_v : LinOp n1 n1 → Form n1 → Form n1

/-- The mutable fields `u` and `v` of main. -/
structure Fields (n0 n1 : ℕ) where
  u : Form n0
  v : Form n1

variable {n0 n1 n2 : ℕ}

/-! ## Doubles -/

/-- Rounding to the nearest integer, ties to the even one. -/
def roundEven (y : ℚ) : ℤ :=
  if y - ⌊y⌋ < 1 / 2 then ⌊y⌋
  else if 1 / 2 < y - ⌊y⌋ then ⌊y⌋ + 1
  else if ⌊y⌋ % 2 = 0 then ⌊y⌋ else ⌊y⌋ + 1

/-- The exponent of the unit in the last place of the binary64 numbers around
`x`: 52 below the binary exponent of `x`, which is taken to be at least -1022
(the subnormal numbers share the last place `2^(-1074)`). -/
def ulpExp (x : ℚ) : ℤ := max (Int.log 2 |x|) (-1022) - 52

/-- The binary64 number nearest to `x`, ties to even: the result of a double
operation whose exact result is `x` (below the overflow threshold). -/
def rn (x : ℚ) : ℚ := (roundEven (x / 2 ^ ulpExp x) : ℚ) * 2 ^ ulpExp x

/-! ## Operator assembly -/

/-- The loop `for index: M.coeffRef(index, index) = d[index]` run over every
index of a square operator. -/
def setDiagonal {n : ℕ} (M : LinOp n n) (d : Form n) : LinOp n n :=
  fun i j => if i = j then d i else M i j

/-- Line 233: `tBB`. -/
def tBB (c : Calculus n0 n1 n2) : LinOp n1 n1 :=
  (-1 : ℚ) • (c.primal_D0 * c.dual_h2 * c.dual_D1 * c.primal_h1
    + c.dual_h1 * c.dual_D0 * c.primal_h2 * c.primal_D1)

/-- Line 241: `lBB`, rebuilt for each lambda. -/
def lBB (c : Calculus n0 n1 n2) (l : ℚ) : LinOp n1 n1 :=
  (-l) • (c.primal_D0 * c.dual_h2 * c.dual_D1 * c.primal_h1
    + c.dual_h1 * c.dual_D0 * c.primal_h2 * c.primal_D1)

/-- Lines 246-248: the constant 1-form `l_4`. -/
def l_4 (l : ℚ) : Form n1 := fun _ => l / 4

/-- Line 265: `BB = eps * lBB + (l/(4.0*eps)) * identity`. -/
def BB (c : Calculus n0 n1 n2) (l eps : ℚ) : LinOp n1 n1 :=
  eps • lBB c l + (l / (4 * eps)) • (1 : LinOp n1 n1)

/-- Lines 273-275 (and 325-327): `Mv2`. -/
def Mv2 (v : Form n1) : LinOp n1 n1 :=
  setDiagonal 1 (fun index => v index * v index)

/-- Lines 277-278: `Av2A`, the operator of the u-system. -/
def Av2A (c : Calculus n0 n1 n2) (a h : ℚ) (v : Form n1) : LinOp n0 n0 :=
  ((-1 * h) • c.dual_h2) * c.dual_D1 * c.primal_h1 * Mv2 v * c.primal_D0
    + (a * h * h) • (1 : LinOp n0 n0)

/-- Line 282: the right-hand side `h*h * ag` of the u-system. -/
def rhs_u (h : ℚ) (ag : Form n0) : Form n0 := (h * h) • ag

/-- Lines 291-293: `Mw2`. -/
def Mw2 (w : Form n1) : LinOp n1 n1 :=
  setDiagonal 1 (fun index => w index * w index)

/-- Line 296: the operator handed to `solver_v.compute`. -/
def vSystem (h : ℚ) (bb : LinOp n1 n1) (w : Form n1) : LinOp n1 n1 :=
  h • bb + h • Mw2 w

/-- Line 298: the right-hand side `h * (1.0/eps) * l_4` of the v-system. -/
def rhs_v (h eps l : ℚ) : Form n1 := (h * (1 / eps)) • (l_4 l : Form n1)

/-- Lines 301-303: `n_infty`, the running maximum started at 0. -/
def n_infty (v former_v : Form n1) : ℚ :=
  (List.finRange n1).foldl (fun acc index => max acc |v index - former_v index|) 0

/-! ## Coordinate descent, annealing, lambda loop -/

/-- The body of the coordinate-descent loop, lines 269-304: the new fields and
the variation `n_infty` it logs. -/
def cdIteration (c : Calculus n0 n1 n2) (S : Solvers n0 n1) (a h l eps : ℚ)
    (ag : Form n0) (bb : LinOp n1 n1) (s : Fields n0 n1) : Fields n0 n1 × ℚ :=
  let u := S.solve_u (Av2A c a h s.v) (rhs_u h ag)
  let former_v := s.v
  let w := c.primal_D0.mulVec u
  let v := S.solve_v (vSystem h bb w) (rhs_v h eps l)
  (⟨u, v⟩, n_infty v former_v)

/-- Lines 266-306: `for ( ; i < n; ++i ) { ...; if ( n_infty < 1e-4 ) break; }`.
The first argument is the number of iterations still allowed; the result is the
fields at exit and the logged variations, one per iteration run. -/
def cdLoop (c : Calculus n0 n1 n2) (S : Solvers n0 n1) (a h l eps : ℚ)
    (ag : Form n0) (bb : LinOp n1 n1) : ℕ → Fields n0 n1 → Fields n0 n1 × List ℚ
  | 0, s => (s, [])
  | k + 1, s =>
    let r := cdIteration c S a h l eps ag bb s
    if r.2 < 1 / 10000 then (r.1, [r.2])
    else
      let r2 := cdLoop c S a h l eps ag bb k r.1
      (r2.1, r.2 :: r2.2)

/-- What the annealing loop leaves behind: the final `eps`, the fields, and for
every step that was run the `eps` it used with the variations logged by its
coordinate descent. -/
structure Annealed (n0 n1 : ℕ) where
  eps : ℚ
  fields : Fields n0 n1
  log : List (ℚ × List ℚ)

/-- Lines 258-309: the annealing loop, `coef_eps = 2`. The first argument is the
number of values of `k` still to go. Line 260 compares the doubles
`eps/coef_eps` and `h*h`; line 264 stores the double `eps/coef_eps`. -/
def annealLoop (c : Calculus n0 n1 n2) (S : Solvers n0 n1) (a h l : ℚ) (n : ℤ)
    (ag : Form n0) : ℕ → ℚ → Fields n0 n1 → Annealed n0 n1
  | 0, eps, s => ⟨eps, s, []⟩
  | k + 1, eps, s =>
    if rn (eps / 2) < rn (h * h) then ⟨eps, s, []⟩
    else
      let eps2 := rn (eps / 2)
      let bb := BB c l eps2
      let r := cdLoop c S a h l eps2 ag bb n.toNat s
      let rest := annealLoop c S a h l n ag k eps2 r.1
      ⟨rest.eps, rest.fields, (eps2, r.2) :: rest.log⟩

/-! ## Energies

The energy block is given twice. `UmG2`, `V2gradU2`, `gradV2`, `Vm12`, `Lper` and
`ATtot` are the exact values of the sums: the formulas that the block evaluates.
`UmG2_double`, `V2gradU2_double`, `gradV2_double`, `Vm12_double`, `Lper_double`
and `ATtot_double` are the doubles that lines 318-356 leave in the variables of
these names: every operation of main is rounded, in the order the expressions
are evaluated; the entries of the operators `Av2A` and `tBB`, products formed
by the library, are the exact products. -/

/-- Lines 318-320. -/
def UmG2 (a : ℚ) (u g : Form n0) : ℚ :=
  ∑ index, a * (u index - g index) * (u index - g index)

/-- Line 328: the operator of the diffusion energy (no `h`, no fidelity part). -/
def Av2A_energy (c : Calculus n0 n1 n2) (v : Form n1) : LinOp n0 n0 :=
  ((-1 : ℚ) • c.dual_h2) * c.dual_D1 * c.primal_h1 * Mv2 v * c.primal_D0

/-- Lines 323-332. -/
def V2gradU2 (c : Calculus n0 n1 n2) (u : Form n0) (v : Form n1) : ℚ :=
  ∑ index_i, ∑ index_j, u index_i * Av2A_energy c v index_i index_j * u index_j

/-- Lines 335-338. -/
def gradV2 (c : Calculus n0 n1 n2) (l eps : ℚ) (v : Form n1) : ℚ :=
  ∑ index_i, ∑ index_j, l * eps * v index_i * tBB c index_i index_j * v index_j

/-- Lines 341-343. -/
def Vm12 (l eps : ℚ) (v : Form n1) : ℚ :=
  ∑ index_i, (l / (4 * eps)) * (1 - 2 * v index_i + v index_i * v index_i)

/-- Line 346. -/
def Lper (c : Calculus n0 n1 n2) (h l eps : ℚ) (v : Form n1) : ℚ :=
  h * gradV2 c l eps v + h * Vm12 l eps v

/-- Line 356. -/
def ATtot (c : Calculus n0 n1 n2) (a h l eps : ℚ) (u g : Form n0) (v : Form n1) : ℚ :=
  h * h * UmG2 a u g + h * V2gradU2 c u v + h * gradV2 c l eps v + h * Vm12 l eps v

/-- Lines 318-320 as run: `UmG2 += a * (u - g) * (u - g)`, in index order. -/
def UmG2_double (a : ℚ) (u g : Form n0) : ℚ :=
  (List.finRange n0).foldl
    (fun acc index =>
      rn (acc + rn (rn (a * rn (u index - g index)) * rn (u index - g index)))) 0

/-- Lines 325-327 as run: the diagonal of `Mv2` holds the double products `v*v`. -/
def Mv2_double (v : Form n1) : LinOp n1 n1 :=
  setDiagonal 1 (fun index => rn (v index * v index))

/-- Line 328 on the rounded squares. -/
def Av2A_energy_double (c : Calculus n0 n1 n2) (v : Form n1) : LinOp n0 n0 :=
  ((-1 : ℚ) • c.dual_h2) * c.dual_D1 * c.primal_h1 * Mv2_double v * c.primal_D0

/-- Lines 323-332 as run: `V2gradU2 += u(i) * Av2A(i,j) * u(j)`, row by row. -/
def V2gradU2_double (c : Calculus n0 n1 n2) (u : Form n0) (v : Form n1) : ℚ :=
  (List.finRange n0).foldl
    (fun acc index_i =>
      (List.finRange n0).foldl
        (fun acc index_j =>
          rn (acc + rn (rn (u index_i * Av2A_energy_double c v index_i index_j) * u index_j)))
        acc) 0

/-- Lines 335-338 as run: `gradV2 += l * eps * v(i) * tBB(i,j) * v(j)`. -/
def gradV2_double (c : Calculus n0 n1 n2) (l eps : ℚ) (v : Form n1) : ℚ :=
  (List.finRange n1).foldl
    (fun acc index_i =>
      (List.finRange n1).foldl
        (fun acc index_j =>
          rn (acc + rn (rn (rn (rn (l * eps) * v index_i) * tBB c index_i index_j)
            * v index_j)))
        acc) 0

/-- Lines 341-343 as run: `Vm12 += (l/(4*eps)) * (1 - 2*v + v*v)`. -/
def Vm12_double (l eps : ℚ) (v : Form n1) : ℚ :=
  (List.finRange n1).foldl
    (fun acc index_i =>
      rn (acc + rn (rn (l / rn (4 * eps))
        * rn (rn (1 - rn (2 * v index_i)) + rn (v index_i * v index_i))))) 0

/-- Line 346 as run. -/
def Lper_double (c : Calculus n0 n1 n2) (h l eps : ℚ) (v : Form n1) : ℚ :=
  rn (rn (h * gradV2_double c l eps v) + rn (h * Vm12_double l eps v))

/-- Line 356 as run: `h*h*UmG2 + h*V2gradU2 + h*gradV2 + h*Vm12`, from the left. -/
def ATtot_double (c : Calculus n0 n1 n2) (a h l eps : ℚ) (u g : Form n0) (v : Form n1) : ℚ :=
  rn (rn (rn (rn (rn (h * h) * UmG2_double a u g) + rn (h * V2gradU2_double c u v))
    + rn (h * gradV2_double c l eps v)) + rn (h * Vm12_double l eps v))

/-! ## Forms to images -/

/-- C `round`: to the nearest integer, halves away from zero. -/
def cround (y : ℚ) : ℤ := if 0 ≤ y then ⌊y + 1 / 2⌋ else ⌈y - 1 / 2⌉

/-- The conversion `(int)` of a double that holds the integer `r`: defined when
`r` is a value of a 32-bit int, undefined (`none`) otherwise. -/
def toInt (r : ℤ) : Option ℤ :=
  if -2147483648 ≤ r ∧ r ≤ 2147483647 then some r else none

/-- Lines 57-58 and 80-81: `g = (int) round( x * 255.0 ); g = max(0, min(255, g))`.
The product is a double, `round` of a double is exact. -/
def pixelValue (x : ℚ) : Option ℤ :=
  (toInt (cround (rn (x * 255)))).map (fun g => max 0 (min 255 g))

/-- A raster: one grey level per point. -/
abbrev Image (P : Type) := P → ℤ

/-- The method `image.setValue( point, g )`. -/
def setValue {P : Type} [DecidableEq P] (image : Image P) (p : P) (g : ℤ) : Image P :=
  fun q => if q = p then g else image q

/-- What a mapper leaves behind: the two logged extrema and the raster. -/
structure Mapped (P : Type) where
  min_val : ℚ
  max_val : ℚ
  image : Image P

/-- Lines 53-60 and 76-83: the loop writing one pixel per cell, in index order. -/
def writeCells {P : Type} [DecidableEq P] {n : ℕ} (coords : Fin n → P) (f : Form n) :
    List (Fin n) → Image P → Option (Image P)
  | [], image => some image
  | index :: rest, image =>
    match pixelValue (f index) with
    | none => none
    | some g => writeCells coords f rest (setValue image (coords index) g)

/-- Lines 42-61. `sCoords` gives the pixel of each 0-cell. The extrema are read
from entry 0 on, so a form without cells has no defined result. -/
def PrimalForm0ToImage {P : Type} [DecidableEq P] (sCoords : Fin n0 → P) (u : Form n0)
    (image : Image P) : Option (Mapped P) :=
  if hn : 0 < n0 then
    let min_u := (List.finRange n0).foldl (fun m index => min m (u index)) (u ⟨0, hn⟩)
    let max_u := (List.finRange n0).foldl (fun m index => max m (u index)) (u ⟨0, hn⟩)
    (writeCells sCoords u (List.finRange n0) image).map (fun img => ⟨min_u, max_u, img⟩)
  else none

/-- Lines 63-84. `sKCoords` gives the Khalimsky point of each 1-cell; every
pixel is first set to 255. -/
def PrimalForm1ToImage {P : Type} [DecidableEq P] (sKCoords : Fin n1 → P) (v : Form n1)
    (_image : Image P) : Option (Mapped P) :=
  if hn : 0 < n1 then
    let min_v := (List.finRange n1).foldl (fun m index => min m (v index)) (v ⟨0, hn⟩)
    let max_v := (List.finRange n1).foldl (fun m index => max m (v index)) (v ⟨0, hn⟩)
    (writeCells sKCoords v (List.finRange n1) (fun _ => 255)).map
      (fun img => ⟨min_v, max_v, img⟩)
  else none

/-! ## main -/

/-- The command line of main after parsing (lines 139-148). -/
structure Options where
  lambda : Option ℚ
  l1 : ℚ
  l2 : ℚ
  lr : ℚ
  a : ℚ
  e : ℚ
  h : ℚ
  n : ℤ

/-- Lines 139-144: `l1`, `l2`, `lr` after the option `lambda` and the two
clamps. `sqrt2` stands for the double `sqrt(2)`. -/
def clamp (sqrt2 : ℚ) (o : Options) : ℚ × ℚ × ℚ :=
  let l1 := match o.lambda with
    | some l => l
    | none => o.l1
  let l2 := match o.lambda with
    | some l => l
    | none => o.l2
  let l2 := if l2 > l1 then l1 else l2
  let lr := if o.lr ≤ 1 then sqrt2 else o.lr
  (l1, l2, lr)

/-- Everything main builds before its loops and never changes afterwards. -/
structure Env (P : Type) (n0 n1 n2 : ℕ) where
  calculus : Calculus n0 n1 n2
  solver : Solvers n0 n1
  sCoords : Fin n0 → P
  sKCoords : Fin n1 → P
  image : Image P
  dbl_image : Image P

/-- Lines 174-180: the 0-form `g` read from the input image, each entry the
double quotient of the grey level by 255. -/
def inputForm {P : Type} (E : Env P n0 n1 n2) : Form n0 :=
  fun index => rn ((E.image (E.sCoords index) : ℚ) / 255)

/-- What one pass of the lambda loop emits: `l`, `a`, the final `eps`, the
energies of lines 317-356 (their exact values, see the energy definitions), the
log of the annealing and the two rasters. -/
structure Output (P : Type) where
  l : ℚ
  a : ℚ
  eps : ℚ
  UmG2 : ℚ
  V2gradU2 : ℚ
  gradV2 : ℚ
  Vm12 : ℚ
  Lper : ℚ
  ATtot : ℚ
  log : List (ℚ × List ℚ)
  image_u : Option (Mapped P)
  image_v : Option (Mapped P)

/-- Lines 238-411: the body of the lambda loop for `l = l1`. The annealing is
entered with the double `coef_eps*e` (lines 255-256). `dbl_image` is
overwritten with 255 by `PrimalForm1ToImage` before it is used, so the raster
left by the previous pass plays no part. -/
def lambdaBody {P : Type} [DecidableEq P] (E : Env P n0 n1 n2) (a e h : ℚ) (n : ℤ)
    (g : Form n0) (l : ℚ) (s : Fields n0 n1) : Output P × Fields n0 n1 :=
  let ag : Form n0 := a • g
  let r := annealLoop E.calculus E.solver a h l n ag 5 (rn (2 * e)) s
  let u := r.fields.u
  let v := r.fields.v
  let eps := r.eps
  (⟨l, a, eps, AT.UmG2 a u g, AT.V2gradU2 E.calculus u v, AT.gradV2 E.calculus l eps v,
    AT.Vm12 l eps v, AT.Lper E.calculus h l eps v, AT.ATtot E.calculus a h l eps u g v,
    r.log, PrimalForm0ToImage E.sCoords u E.image,
    PrimalForm1ToImage E.sKCoords v E.dbl_image⟩, r.fields)

/-- Lines 236-413: `while ( l1 >= l2 ) { ...; l1 /= lr; }`. The fuel bounds the
number of times the loop condition is evaluated; `l1 /= lr` stores the double
quotient. -/
def mainLoop {P : Type} [DecidableEq P] (E : Env P n0 n1 n2) (a e h : ℚ) (n : ℤ)
    (g : Form n0) (l2 lr : ℚ) : ℕ → ℚ → Fields n0 n1 → Option (List (Output P) × Fields n0 n1)
  | 0, _, _ => none
  | fuel + 1, l1, s =>
    if l1 ≥ l2 then
      let r := lambdaBody E a e h n g l1 s
      (mainLoop E a e h n g l2 lr fuel (rn (l1 / lr)) r.2).map (fun t => (r.1 :: t.1, t.2))
    else some ([], s)

/-- The function main from line 139 on: clamps, initial fields `u = a*g` and
`v = 1`, then the lambda loop. -/
def atMain {P : Type} [DecidableEq P] (sqrt2 : ℚ) (E : Env P n0 n1 n2) (o : Options)
    (fuel : ℕ) : Option (List (Output P) × Fields n0 n1) :=
  let p := clamp sqrt2 o
  let g := inputForm E
  mainLoop E o.a o.e o.h o.n g p.2.1 p.2.2 fuel p.1 ⟨o.a • g, fun _ => 1⟩

/-! ## Auxiliary definitions used to state the results -/

/-- The fields after `j` unbroken passes of the coordinate-descent body. -/
def cdIterate (c : Calculus n0 n1 n2) (S : Solvers n0 n1) (a h l eps : ℚ)
    (ag : Form n0) (bb : LinOp n1 n1) (s : Fields n0 n1) : ℕ → Fields n0 n1
  | 0 => s
  | j + 1 => (cdIteration c S a h l eps ag bb (cdIterate c S a h l eps ag bb s j)).1

/-- The variation `n_infty` that pass `j` (counted from 0) of the
coordinate-descent body logs. -/
def cdDelta (c : Calculus n0 n1 n2) (S : Solvers n0 n1) (a h l eps : ℚ)
    (ag : Form n0) (bb : LinOp n1 n1) (s : Fields n0 n1) (j : ℕ) : ℚ :=
  (cdIteration c S a h l eps ag bb (cdIterate c S a h l eps ag bb s j)).2

/-- The value of `l1` after `k` passes of the lambda loop: `l1` divided `k`
times by `lr`, each quotient a double. -/
def lambdaAt (lr l1 : ℚ) : ℕ → ℚ
  | 0 => l1
  | k + 1 => rn (lambdaAt lr l1 k / lr)

/-- The value `eps0` halved `k` times, each quotient a double. -/
def epsAt (eps0 : ℚ) : ℕ → ℚ
  | 0 => eps0
  | k + 1 => rn (epsAt eps0 k / 2)

/-- The fields after `k` steps of an unbroken annealing entered with `eps0` and
the fields `s`: step `k` (counted from 0) runs the coordinate descent for `eps0`
halved `k + 1` times, from the fields the step before left. -/
def annealFields (c : Calculus n0 n1 n2) (S : Solvers n0 n1) (a h l : ℚ) (n : ℤ)
    (ag : Form n0) (eps0 : ℚ) (s : Fields n0 n1) : ℕ → Fields n0 n1
  | 0 => s
  | k + 1 =>
    (cdLoop c S a h l (epsAt eps0 (k + 1)) ag (BB c l (epsAt eps0 (k + 1))) n.toNat
      (annealFields c S a h l n ag eps0 s k)).1

/-- The duality between derivatives and codifferentials on a unit grid: the two
Hodge-derivative-Hodge products that main forms are the negated transposes of
the primal derivatives. -/
def UnitGridDuality (c : Calculus n0 n1 n2) : Prop :=
  c.dual_h2 * c.dual_D1 * c.primal_h1 = -c.primal_D0.transpose ∧
    c.dual_h1 * c.dual_D0 * c.primal_h2 = -c.primal_D1.transpose

instance (c : Calculus n0 n1 n2) : Decidable (UnitGridDuality c) := by
  unfold UnitGridDuality
  infer_instance

/-- An exact direct solver (Cramer rule), one possible `solve`. -/
def solveExact {n : ℕ} (A : LinOp n n) (b : Form n) : Form n :=
  (A.det)⁻¹ • A.adjugate.mulVec b

/-- The complex of a 2x1 image: two pixels, the edge between them, no face. -/
def twoPixel : Calculus 2 1 0 where
  primal_D0 := !![-1, 1]
  primal_h0 := 1
  primal_h1 := 1
  dual_D1 := !![1; -1]
  dual_h2 := 1
  primal_D1 := 0
  primal_h2 := 0
  dual_D0 := 0
  dual_h1 := -1

/-- The complex of a 2x2 image: pixels 0 = (0,0), 1 = (1,0), 2 = (0,1),
3 = (1,1); edges 0 = 0-1, 1 = 2-3, 2 = 0-2, 3 = 1-3; one face. -/
def fourPixel : Calculus 4 4 1 where
  primal_D0 := !![-1, 1, 0, 0; 0, 0, -1, 1; -1, 0, 1, 0; 0, -1, 0, 1]
  primal_h0 := 1
  primal_h1 := 1
  dual_D1 := !![1, 0, 1, 0; -1, 0, 0, 1; 0, 1, -1, 0; 0, -1, 0, -1]
  dual_h2 := 1
  primal_D1 := !![1, -1, -1, 1]
  primal_h2 := 1
  dual_D0 := !![1; -1; -1; 1]
  dual_h1 := -1

/-- The exact solver for both systems. -/
def exactSolvers (n0 n1 : ℕ) : Solvers n0 n1 := ⟨solveExact, solveExact⟩

/-- The 2x1 image with a black and a white pixel, its cells and rasters. -/
def twoPixelEnv : Env (ℤ × ℤ) 2 1 0 where
  calculus := twoPixel
  solver := exactSolvers 2 1
  sCoords := fun index => (index.val, 0)
  sKCoords := fun _ => (1, 0)
  image := fun p => if p = (1, 0) then 255 else 0
  dbl_image := fun _ => 0

/-! ## Rounding -/

theorem roundEven_le (y : ℚ) (z : ℤ) (hz : y ≤ z) : roundEven y ≤ z := by
  have h1 : ⌊y⌋ ≤ z := Int.floor_le_iff.mpr (by linarith)
  unfold roundEven
  split_ifs with ha hb hc
  · exact h1
  · rcases lt_or_eq_of_le h1 with hlt | heq
    · omega
    · rw [heq] at hb
      linarith
  · exact h1
  · rcases lt_or_eq_of_le h1 with hlt | heq
    · omega
    · rw [heq] at ha
      have : y - (z : ℚ) ≤ 0 := by linarith
      linarith

theorem le_roundEven (y : ℚ) (z : ℤ) (hz : (z : ℚ) ≤ y) : z ≤ roundEven y := by
  have h1 : z ≤ ⌊y⌋ := Int.le_floor.mpr hz
  unfold roundEven
  split_ifs <;> omega

theorem roundEven_near (y : ℚ) (m : ℤ) (hm : |y - m| < 1 / 2) : roundEven y = m := by
  rw [abs_lt] at hm
  have hfl := Int.floor_le y
  have hfl2 := Int.lt_floor_add_one y
  unfold roundEven
  split_ifs with ha hb hc
  · have h1 : ⌊y⌋ ≤ m := by
      have : ⌊y⌋ < m + 1 := by
        exact_mod_cast (show (⌊y⌋ : ℚ) < ((m + 1 : ℤ) : ℚ) by push_cast; linarith)
      omega
    have h2 : m ≤ ⌊y⌋ := by
      have : m - 1 < ⌊y⌋ := by
        exact_mod_cast (show ((m - 1 : ℤ) : ℚ) < (⌊y⌋ : ℚ) by push_cast; linarith)
      omega
    omega
  · have h1 : ⌊y⌋ + 1 ≤ m := by
      have : ⌊y⌋ < m := by
        exact_mod_cast (show (⌊y⌋ : ℚ) < (m : ℚ) by linarith)
      omega
    have h2 : m ≤ ⌊y⌋ + 1 := by
      have : m - 1 ≤ ⌊y⌋ := Int.le_floor.mpr (by push_cast; linarith)
      omega
    omega
  · exfalso
    have heq : y - ⌊y⌋ = 1 / 2 := le_antisymm (not_lt.mp hb) (not_lt.mp ha)
    have h1 : (m : ℚ) < ⌊y⌋ + 1 := by linarith
    have h2 : (⌊y⌋ : ℚ) < m := by linarith
    have h3 : m < ⌊y⌋ + 1 := by exact_mod_cast h1
    have h4 : ⌊y⌋ < m := by exact_mod_cast h2
    omega
  · exfalso
    have heq : y - ⌊y⌋ = 1 / 2 := le_antisymm (not_lt.mp hb) (not_lt.mp ha)
    have h1 : (m : ℚ) < ⌊y⌋ + 1 := by linarith
    have h2 : (⌊y⌋ : ℚ) < m := by linarith
    have h3 : m < ⌊y⌋ + 1 := by exact_mod_cast h1
    have h4 : ⌊y⌋ < m := by exact_mod_cast h2
    omega

theorem roundEven_intCast (m : ℤ) : roundEven (m : ℚ) = m :=
  roundEven_near _ m (by simp)

theorem rn_nonneg (x : ℚ) (hx : 0 ≤ x) : 0 ≤ rn x := by
  unfold rn
  have hq : (0 : ℚ) < 2 ^ ulpExp x := zpow_pos (by norm_num) _
  have h1 : (0 : ℤ) ≤ roundEven (x / 2 ^ ulpExp x) :=
    le_roundEven _ 0 (by push_cast; exact div_nonneg hx hq.le)
  exact mul_nonneg (by exact_mod_cast h1) hq.le

theorem rn_nonpos (x : ℚ) (hx : x ≤ 0) : rn x ≤ 0 := by
  unfold rn
  have hq : (0 : ℚ) < 2 ^ ulpExp x := zpow_pos (by norm_num) _
  have h1 : roundEven (x / 2 ^ ulpExp x) ≤ (0 : ℤ) :=
    roundEven_le _ 0 (by push_cast; exact div_nonpos_of_nonpos_of_nonneg hx hq.le)
  exact mul_nonpos_of_nonpos_of_nonneg (by exact_mod_cast h1) hq.le

/-- The exponent of the last place from bounds on `x`. -/
theorem ulpExp_eq (x : ℚ) (e : ℤ) (he : -1022 ≤ e) (h1 : (2 : ℚ) ^ e ≤ |x|)
    (h2 : |x| < (2 : ℚ) ^ (e + 1)) : ulpExp x = e - 52 := by
  have hpos : (0 : ℚ) < |x| := lt_of_lt_of_le (zpow_pos (by norm_num) _) h1
  have hlog : Int.log 2 |x| = e := by
    have ha : e ≤ Int.log 2 |x| :=
      (Int.zpow_le_iff_le_log (by norm_num) hpos).mp (by exact_mod_cast h1)
    have hb : Int.log 2 |x| < e + 1 :=
      (Int.lt_zpow_iff_log_lt (by norm_num) hpos).mp (by exact_mod_cast h2)
    omega
  unfold ulpExp
  rw [hlog, max_eq_left he]

/-- Below `2^53` in size the last place is at most the units. -/
theorem ulpExp_nonpos (x : ℚ) (hx : |x| < 2 ^ 53) : ulpExp x ≤ 0 := by
  unfold ulpExp
  rcases eq_or_lt_of_le (abs_nonneg x) with h0 | hpos
  · rw [← h0, Int.log_zero_right]
    norm_num
  · have hb : Int.log 2 |x| < 53 :=
      (Int.lt_zpow_iff_log_lt (by norm_num) hpos).mp (by exact_mod_cast hx)
    have : max (Int.log 2 |x|) (-1022) ≤ 52 := max_le (by omega) (by norm_num)
    omega

/-- Evaluation of `rn` from the exponent of the last place and the nearest
multiple of the unit. -/
theorem rn_eval (x : ℚ) (k m : ℤ) (hk : ulpExp x = k) (hm : |x / 2 ^ k - m| < 1 / 2) :
    rn x = (m : ℚ) * 2 ^ k := by
  unfold rn
  rw [hk, roundEven_near _ m hm]

/-- When the last place is `2^(-n)`, `rn` rounds the multiples of `2^(-n)`. -/
theorem rn_grid (x : ℚ) (n : ℕ) (hk : ulpExp x = -(n : ℤ)) :
    rn x = (roundEven (x * 2 ^ n) : ℚ) / 2 ^ n := by
  unfold rn
  rw [hk, zpow_neg, zpow_natCast, div_inv_eq_mul, div_eq_mul_inv]

theorem rn_zero : rn 0 = 0 := by
  have h := rn_nonneg 0 le_rfl
  have h2 := rn_nonpos 0 le_rfl
  exact le_antisymm h2 h

/-- Below `2^53` in size `rn` does not cross an integer: an integer above `x`
is above `rn x`. -/
theorem rn_le_int (x : ℚ) (z : ℤ) (hx : |x| < 2 ^ 53) (hz : x ≤ z) : rn x ≤ z := by
  obtain ⟨n, hn⟩ := Int.exists_eq_neg_ofNat (ulpExp_nonpos x hx)
  have hpow : (0 : ℚ) < 2 ^ n := pow_pos (by norm_num) n
  rw [rn_grid x n hn, div_le_iff₀ hpow]
  have h1 : roundEven (x * 2 ^ n) ≤ z * 2 ^ n :=
    roundEven_le _ _ (by push_cast; exact mul_le_mul_of_nonneg_right hz hpow.le)
  exact_mod_cast h1

/-- Below `2^53` in size an integer below `x` is below `rn x`. -/
theorem int_le_rn (x : ℚ) (z : ℤ) (hx : |x| < 2 ^ 53) (hz : (z : ℚ) ≤ x) : (z : ℚ) ≤ rn x := by
  obtain ⟨n, hn⟩ := Int.exists_eq_neg_ofNat (ulpExp_nonpos x hx)
  have hpow : (0 : ℚ) < 2 ^ n := pow_pos (by norm_num) n
  rw [rn_grid x n hn, le_div_iff₀ hpow]
  have h1 : z * 2 ^ n ≤ roundEven (x * 2 ^ n) :=
    le_roundEven _ _ (by push_cast; exact mul_le_mul_of_nonneg_right hz hpow.le)
  exact_mod_cast h1

/-- A number `m / 2^j` with `|m| < 2^53` and `j ≤ 1074` is a binary64 number:
`rn` leaves it unchanged. -/
theorem rn_of_dyadic (m : ℤ) (j : ℕ) (hm : |m| < 2 ^ 53) (hj : j ≤ 1074) :
    rn ((m : ℚ) / 2 ^ j) = (m : ℚ) / 2 ^ j := by
  have hpowj : (0 : ℚ) < 2 ^ j := pow_pos (by norm_num) j
  by_cases hm0 : m = 0
  · subst hm0
    simp [rn_zero]
  have hmq : |(m : ℚ)| < 2 ^ 53 := by exact_mod_cast hm
  have hpos : 0 < |(m : ℚ) / 2 ^ j| :=
    abs_pos.mpr (div_ne_zero (by exact_mod_cast hm0) hpowj.ne')
  have hlt : |(m : ℚ) / 2 ^ j| < (2 : ℚ) ^ ((53 : ℤ) - j) := by
    rw [abs_div, abs_of_pos hpowj, zpow_sub₀ (by norm_num), zpow_natCast]
    exact div_lt_div_of_pos_right (by exact_mod_cast hmq) hpowj
  have hb : Int.log 2 |(m : ℚ) / 2 ^ j| < 53 - j :=
    (Int.lt_zpow_iff_log_lt (by norm_num) hpos).mp (by exact_mod_cast hlt)
  have hk : ulpExp ((m : ℚ) / 2 ^ j) ≤ -(j : ℤ) := by
    unfold ulpExp
    have : max (Int.log 2 |(m : ℚ) / 2 ^ j|) (-1022) ≤ 52 - j := max_le (by omega) (by omega)
    omega
  obtain ⟨n, hn⟩ := Int.exists_eq_neg_ofNat (le_trans hk (by omega : -(j : ℤ) ≤ 0))
  have hjn : j ≤ n := by omega
  have hsplit : (2 : ℚ) ^ n = 2 ^ j * 2 ^ (n - j) := by
    rw [← pow_add]
    congr 1
    omega
  have hx : (m : ℚ) / 2 ^ j * 2 ^ n = ((m * 2 ^ (n - j) : ℤ) : ℚ) := by
    push_cast
    rw [hsplit]
    field_simp
    ring
  rw [rn_grid _ n hn, hx, roundEven_intCast]
  push_cast
  rw [hsplit]
  field_simp
  ring

theorem rn_intCast (m : ℤ) (hm : |m| < 2 ^ 53) : rn (m : ℚ) = m := by
  have h := rn_of_dyadic m 0 hm (by norm_num)
  simpa using h


theorem roundEven_mono {a b : ℚ} (hab : a ≤ b) : roundEven a ≤ roundEven b := by
  have hfl : ⌊a⌋ ≤ ⌊b⌋ := Int.floor_mono hab
  rcases lt_or_eq_of_le hfl with hlt | heq
  · have h1 : roundEven a ≤ ⌊a⌋ + 1 :=
      roundEven_le a (⌊a⌋ + 1) (by push_cast; exact (Int.lt_floor_add_one a).le)
    have h2 : ⌊b⌋ ≤ roundEven b := le_roundEven b ⌊b⌋ (Int.floor_le b)
    omega
  · unfold roundEven
    rw [heq]
    split_ifs <;> first | omega | (exfalso; linarith)

theorem roundEven_neg (y : ℚ) : roundEven (-y) = -roundEven y := by
  by_cases hint : (⌊y⌋ : ℚ) = y
  · rw [← hint]
    have h : -((⌊y⌋ : ℤ) : ℚ) = ((-⌊y⌋ : ℤ) : ℚ) := by push_cast; rfl
    rw [h, roundEven_intCast, roundEven_intCast]
  · have hlt : (⌊y⌋ : ℚ) < y := lt_of_le_of_ne (Int.floor_le y) hint
    have hlt2 := Int.lt_floor_add_one y
    have hfl : ⌊-y⌋ = -⌊y⌋ - 1 := by
      rw [Int.floor_eq_iff]
      push_cast
      constructor <;> linarith
    unfold roundEven
    rw [hfl]
    push_cast
    split_ifs <;> first | omega | (exfalso; linarith)

theorem rn_neg (x : ℚ) : rn (-x) = -rn x := by
  have he : ulpExp (-x) = ulpExp x := by
    unfold ulpExp
    rw [abs_neg]
  unfold rn
  rw [he, neg_div, roundEven_neg]
  push_cast
  ring

/-- A multiple of a power of two at or above the last place of `x` that is above
`x` is above `rn x`. -/
theorem rn_le_grid (x : ℚ) (z : ℤ) (j : ℕ) (hz : x ≤ (z : ℚ) * 2 ^ (ulpExp x + j)) :
    rn x ≤ (z : ℚ) * 2 ^ (ulpExp x + j) := by
  have hq : (0 : ℚ) < 2 ^ ulpExp x := zpow_pos (by norm_num) _
  have hsplit : (2 : ℚ) ^ (ulpExp x + j) = 2 ^ ulpExp x * 2 ^ j := by
    rw [zpow_add₀ (by norm_num), zpow_natCast]
  have h1 : roundEven (x / 2 ^ ulpExp x) ≤ z * 2 ^ j := by
    apply roundEven_le
    push_cast
    rw [div_le_iff₀ hq]
    calc x ≤ (z : ℚ) * 2 ^ (ulpExp x + j) := hz
      _ = (z : ℚ) * 2 ^ j * 2 ^ ulpExp x := by rw [hsplit]; ring
  have h2 : ((roundEven (x / 2 ^ ulpExp x) : ℤ) : ℚ) ≤ ((z * 2 ^ j : ℤ) : ℚ) := by
    exact_mod_cast h1
  unfold rn
  calc (roundEven (x / 2 ^ ulpExp x) : ℚ) * 2 ^ ulpExp x
      ≤ ((z * 2 ^ j : ℤ) : ℚ) * 2 ^ ulpExp x := mul_le_mul_of_nonneg_right h2 hq.le
    _ = (z : ℚ) * 2 ^ (ulpExp x + j) := by rw [hsplit]; push_cast; ring

/-- A multiple of a power of two at or above the last place of `x` that is below
`x` is below `rn x`. -/
theorem grid_le_rn (x : ℚ) (z : ℤ) (j : ℕ) (hz : (z : ℚ) * 2 ^ (ulpExp x + j) ≤ x) :
    (z : ℚ) * 2 ^ (ulpExp x + j) ≤ rn x := by
  have h := rn_le_grid (-x) (-z) j (by
    have he : ulpExp (-x) = ulpExp x := by unfold ulpExp; rw [abs_neg]
    rw [he]
    push_cast
    linarith)
  have he : ulpExp (-x) = ulpExp x := by unfold ulpExp; rw [abs_neg]
  rw [he, rn_neg] at h
  push_cast at h
  linarith

theorem ulpExp_mono_pos {x y : ℚ} (hx : 0 < x) (hxy : x ≤ y) : ulpExp x ≤ ulpExp y := by
  unfold ulpExp
  rw [abs_of_pos hx, abs_of_pos (lt_of_lt_of_le hx hxy)]
  have := Int.log_mono_right (b := 2) hx hxy
  have h2 : max (Int.log 2 x) (-1022) ≤ max (Int.log 2 y) (-1022) := max_le_max this le_rfl
  omega

theorem rn_mono_pos {x y : ℚ} (hx : 0 < x) (hxy : x ≤ y) : rn x ≤ rn y := by
  have hy : 0 < y := lt_of_lt_of_le hx hxy
  rcases eq_or_lt_of_le (ulpExp_mono_pos hx hxy) with heq | hlt
  · unfold rn
    rw [heq]
    have hq : (0 : ℚ) < 2 ^ ulpExp y := zpow_pos (by norm_num) _
    have h1 : roundEven (x / 2 ^ ulpExp y) ≤ roundEven (y / 2 ^ ulpExp y) :=
      roundEven_mono (div_le_div_of_nonneg_right hxy hq.le)
    exact mul_le_mul_of_nonneg_right (by exact_mod_cast h1) hq.le
  · have hlogx : max (Int.log 2 x) (-1022) < Int.log 2 y := by
      unfold ulpExp at hlt
      rw [abs_of_pos hx, abs_of_pos hy] at hlt
      rcases le_total (Int.log 2 y) (-1022) with hc | hc
      · rw [max_eq_right hc] at hlt
        have := le_max_right (Int.log 2 x) (-1022)
        omega
      · rw [max_eq_left hc] at hlt
        omega
    have hly : -1022 ≤ Int.log 2 y := le_trans (le_max_right _ _) hlogx.le
    have hex : ulpExp x = max (Int.log 2 x) (-1022) - 52 := by
      unfold ulpExp
      rw [abs_of_pos hx]
    have hey : ulpExp y = Int.log 2 y - 52 := by
      unfold ulpExp
      rw [abs_of_pos hy, max_eq_left hly]
    have hxk : x < (2 : ℚ) ^ Int.log 2 y := by
      have : Int.log 2 x < Int.log 2 y := lt_of_le_of_lt (le_max_left _ _) hlogx
      exact_mod_cast (Int.lt_zpow_iff_log_lt (by norm_num) hx).mpr this
    have hky : (2 : ℚ) ^ Int.log 2 y ≤ y := by
      exact_mod_cast Int.zpow_log_le_self (by norm_num) hy
    obtain ⟨j, hj⟩ := Int.eq_ofNat_of_zero_le (show 0 ≤ Int.log 2 y - ulpExp x by omega)
    have h1 : rn x ≤ ((1 : ℤ) : ℚ) * 2 ^ (ulpExp x + j) :=
      rn_le_grid x 1 j (by
        rw [← hj]
        push_cast
        rw [one_mul, add_sub_cancel]
        exact hxk.le)
    have h2 : ((1 : ℤ) : ℚ) * 2 ^ (ulpExp y + (52 : ℕ)) ≤ rn y :=
      grid_le_rn y 1 52 (by
        rw [hey]
        push_cast
        rw [one_mul, sub_add_cancel]
        exact hky)
    have e1 : ulpExp x + (j : ℤ) = Int.log 2 y := by omega
    have e2 : ulpExp y + ((52 : ℕ) : ℤ) = Int.log 2 y := by
      rw [hey]
      push_cast
      ring
    rw [e1] at h1
    rw [e2] at h2
    exact le_trans h1 h2

/-- Rounding is monotone. -/
theorem rn_mono {x y : ℚ} (hxy : x ≤ y) : rn x ≤ rn y := by
  rcases lt_trichotomy 0 x with hx | hx | hx
  · exact rn_mono_pos hx hxy
  · subst hx
    rw [rn_zero]
    exact rn_nonneg y hxy
  · rcases le_or_lt 0 y with hy | hy
    · exact le_trans (rn_nonpos x hx.le) (rn_nonneg y hy)
    · have h := rn_mono_pos (neg_pos.mpr hy) (neg_le_neg hxy)
      rw [rn_neg, rn_neg] at h
      linarith

/-- A multiple of a power of two at or above the last place of `x` is a double. -/
theorem rn_of_grid (x : ℚ) (z : ℤ) (j : ℕ) (hx : x = (z : ℚ) * 2 ^ (ulpExp x + j)) :
    rn x = x := by
  have h1 := rn_le_grid x z j hx.le
  have h2 := grid_le_rn x z j hx.ge
  rw [← hx] at h1 h2
  exact le_antisymm h1 h2

/-- Doubling a double is exact. -/
theorem rn_two_mul (v : ℚ) (hv : rn v = v) : rn (2 * v) = 2 * v := by
  by_cases h0 : v = 0
  · subst h0
    simp [rn_zero]
  have hpos : 0 < |v| := abs_pos.mpr h0
  have hpos2 : 0 < |2 * v| := abs_pos.mpr (mul_ne_zero two_ne_zero h0)
  have hlog : Int.log 2 |2 * v| ≤ Int.log 2 |v| + 1 := by
    have h1 : |v| < (2 : ℚ) ^ (Int.log 2 |v| + 1) := by
      exact_mod_cast Int.lt_zpow_succ_log_self (by norm_num) |v|
    have h2 : |2 * v| < (2 : ℚ) ^ (Int.log 2 |v| + 1 + 1) := by
      rw [abs_mul, abs_of_pos (by norm_num : (0 : ℚ) < 2), zpow_add_one₀ (by norm_num)
        (Int.log 2 |v| + 1)]
      linarith
    have h3 : Int.log 2 |2 * v| < Int.log 2 |v| + 1 + 1 :=
      (Int.lt_zpow_iff_log_lt (by norm_num) hpos2).mp (by exact_mod_cast h2)
    omega
  have he : ulpExp (2 * v) ≤ ulpExp v + 1 := by
    unfold ulpExp
    have : max (Int.log 2 |2 * v|) (-1022) ≤ max (Int.log 2 |v|) (-1022) + 1 :=
      max_le (le_trans hlog (by have := le_max_left (Int.log 2 |v|) (-1022); omega))
        (by have := le_max_right (Int.log 2 |v|) (-1022); omega)
    omega
  obtain ⟨j, hj⟩ := Int.eq_ofNat_of_zero_le (show 0 ≤ ulpExp v + 1 - ulpExp (2 * v) by omega)
  apply rn_of_grid (2 * v) (roundEven (v / 2 ^ ulpExp v)) j
  have e1 : ulpExp (2 * v) + (j : ℤ) = ulpExp v + 1 := by omega
  rw [e1, zpow_add_one₀ (by norm_num)]
  have hv2 : (roundEven (v / 2 ^ ulpExp v) : ℚ) * 2 ^ ulpExp v = v := hv
  calc 2 * v = 2 * ((roundEven (v / 2 ^ ulpExp v) : ℚ) * 2 ^ ulpExp v) := by rw [hv2]
    _ = (roundEven (v / 2 ^ ulpExp v) : ℚ) * (2 ^ ulpExp v * 2) := by ring
/-! ## The lambda loop -/

theorem mainLoop_zero {P : Type} [DecidableEq P] (E : Env P n0 n1 n2) (a e h : ℚ) (n : ℤ)
    (g : Form n0) (l2 lr l1 : ℚ) (s : Fields n0 n1) :
    mainLoop E a e h n g l2 lr 0 l1 s = none := rfl

theorem mainLoop_exit {P : Type} [DecidableEq P] (E : Env P n0 n1 n2) (a e h : ℚ) (n : ℤ)
    (g : Form n0) (l2 lr l1 : ℚ) (s : Fields n0 n1) (fuel : ℕ) (hlt : l1 < l2) :
    mainLoop E a e h n g l2 lr (fuel + 1) l1 s = some ([], s) := by
  simp [mainLoop, not_le.mpr hlt]

theorem mainLoop_pass {P : Type} [DecidableEq P] (E : Env P n0 n1 n2) (a e h : ℚ) (n : ℤ)
    (g : Form n0) (l2 lr l1 : ℚ) (s : Fields n0 n1) (fuel : ℕ) (hge : l2 ≤ l1) :
    mainLoop E a e h n g l2 lr (fuel + 1) l1 s =
      (mainLoop E a e h n g l2 lr fuel (rn (l1 / lr)) (lambdaBody E a e h n g l1 s).2).map
        (fun t => ((lambdaBody E a e h n g l1 s).1 :: t.1, t.2)) := by
  simp [mainLoop, hge]

theorem lambdaBody_l {P : Type} [DecidableEq P] (E : Env P n0 n1 n2) (a e h : ℚ) (n : ℤ)
    (g : Form n0) (l : ℚ) (s : Fields n0 n1) : (lambdaBody E a e h n g l s).1.l = l := rfl

theorem lambdaAt_shift (lr l1 : ℚ) : ∀ k, lambdaAt lr l1 (k + 1) = lambdaAt lr (rn (l1 / lr)) k := by
  intro k
  induction k with
  | zero => rfl
  | succ k ih =>
    show rn (lambdaAt lr l1 (k + 1) / lr) = rn (lambdaAt lr (rn (l1 / lr)) k / lr)
    rw [ih]

/-- With a non-positive `l2` and a non-negative `l1` the loop condition never
fails, whatever the fuel. -/
theorem mainLoop_none_of_nonpos {P : Type} [DecidableEq P] (E : Env P n0 n1 n2)
    (a e h : ℚ) (n : ℤ) (g : Form n0) (l2 lr : ℚ) (hl2 : l2 ≤ 0) (hlr : 0 ≤ lr) :
    ∀ (fuel : ℕ) (l1 : ℚ) (s : Fields n0 n1), 0 ≤ l1 →
      mainLoop E a e h n g l2 lr fuel l1 s = none := by
  intro fuel
  induction fuel with
  | zero => intro l1 s _; rfl
  | succ k ih =>
    intro l1 s h1
    rw [mainLoop_pass E a e h n g l2 lr l1 s k (le_trans hl2 h1),
      ih (rn (l1 / lr)) _ (rn_nonneg _ (div_nonneg h1 hlr))]
    rfl

/-- If the values `lambdaAt lr l1 k` stay at or above `l2` for `k < N` and value
`N` is below, the loop exits after exactly `N` passes, for every fuel above `N`,
and pass `k` uses `lambdaAt lr l1 k`. -/
theorem mainLoop_run {P : Type} [DecidableEq P] (E : Env P n0 n1 n2) (a e h : ℚ) (n : ℤ)
    (g : Form n0) (l2 lr : ℚ) :
    ∀ (N : ℕ) (l1 : ℚ) (s : Fields n0 n1),
      (∀ k, k < N → l2 ≤ lambdaAt lr l1 k) → lambdaAt lr l1 N < l2 →
      ∃ outs s2, (∀ fuel, N < fuel → mainLoop E a e h n g l2 lr fuel l1 s = some (outs, s2)) ∧
        outs.map Output.l = (List.range N).map (lambdaAt lr l1) := by
  intro N
  induction N with
  | zero =>
    intro l1 s _ hlt
    refine ⟨[], s, ?_, rfl⟩
    intro fuel hf
    obtain ⟨f, rfl⟩ := Nat.exists_eq_succ_of_ne_zero (Nat.pos_iff_ne_zero.mp hf)
    exact mainLoop_exit E a e h n g l2 lr l1 s f hlt
  | succ N ih =>
    intro l1 s hge hlt
    have h0 : l2 ≤ l1 := hge 0 (Nat.succ_pos N)
    obtain ⟨outs, s2, hrun, hmap⟩ := ih (rn (l1 / lr)) (lambdaBody E a e h n g l1 s).2
      (fun k hk => by rw [← lambdaAt_shift]; exact hge (k + 1) (Nat.succ_lt_succ hk))
      (by rw [← lambdaAt_shift]; exact hlt)
    refine ⟨(lambdaBody E a e h n g l1 s).1 :: outs, s2, ?_, ?_⟩
    · intro fuel hf
      obtain ⟨f, rfl⟩ := Nat.exists_eq_succ_of_ne_zero
        (Nat.pos_iff_ne_zero.mp (Nat.lt_of_le_of_lt (Nat.zero_le _) hf))
      rw [mainLoop_pass E a e h n g l2 lr l1 s f h0, hrun f (by omega)]
      rfl
    · rw [List.map_cons, hmap, lambdaBody_l, List.range_succ_eq_map, List.map_cons, List.map_map]
      refine congrArg₂ List.cons rfl ?_
      apply List.map_congr_left
      intro k _
      simp only [Function.comp, lambdaAt_shift]

/-- Whenever the loop exits, the passes it made used the values `lambdaAt lr l1 k`
in order, each at or above `l2`, and the next value is below `l2`. -/
theorem mainLoop_exits {P : Type} [DecidableEq P] (E : Env P n0 n1 n2) (a e h : ℚ) (n : ℤ)
    (g : Form n0) (l2 lr : ℚ) :
    ∀ (fuel : ℕ) (l1 : ℚ) (s : Fields n0 n1) (outs : List (Output P)) (s2 : Fields n0 n1),
      mainLoop E a e h n g l2 lr fuel l1 s = some (outs, s2) →
      outs.map Output.l = (List.range outs.length).map (lambdaAt lr l1) ∧
      (∀ k, k < outs.length → l2 ≤ lambdaAt lr l1 k) ∧ lambdaAt lr l1 outs.length < l2 := by
  intro fuel
  induction fuel with
  | zero =>
    intro l1 s outs s2 hrun
    rw [mainLoop_zero] at hrun
    exact absurd hrun (by simp)
  | succ f ih =>
    intro l1 s outs s2 hrun
    by_cases hge : l2 ≤ l1
    · rw [mainLoop_pass E a e h n g l2 lr l1 s f hge] at hrun
      obtain ⟨t, ht, hpair⟩ := Option.map_eq_some'.mp hrun
      obtain ⟨t1, t2⟩ := t
      simp only [Prod.mk.injEq] at hpair
      obtain ⟨hout, -⟩ := hpair
      obtain ⟨hmap, hall, hnext⟩ := ih (rn (l1 / lr)) _ t1 t2 ht
      subst hout
      refine ⟨?_, ?_, ?_⟩
      · rw [List.map_cons, hmap, lambdaBody_l, List.length_cons, List.range_succ_eq_map,
          List.map_cons, List.map_map]
        refine congrArg₂ List.cons rfl ?_
        apply List.map_congr_left
        intro k _
        simp only [Function.comp, lambdaAt_shift]
      · intro k hk
        cases k with
        | zero => exact hge
        | succ k =>
          rw [lambdaAt_shift]
          exact hall k (by simpa using hk)
      · rw [List.length_cons, lambdaAt_shift]
        exact hnext
    · rw [mainLoop_exit E a e h n g l2 lr l1 s f (not_le.mp hge)] at hrun
      simp only [Option.some.injEq, Prod.mk.injEq] at hrun
      obtain ⟨hout, -⟩ := hrun
      subst hout
      exact ⟨rfl, fun k hk => absurd hk (Nat.not_lt_zero k), not_le.mp hge⟩

/-- For `l2 > 0` and `lr > 1` some term of the sequence is below `l2`, and at
the first such term every earlier one is at or above `l2`. -/
theorem exists_first_below (l1 l2 lr : ℚ) (hl2 : 0 < l2) (hlr : 1 < lr) :
    ∃ N : ℕ, l1 / lr ^ N < l2 ∧ ∀ k, k < N → l2 ≤ l1 / lr ^ k := by
  have hex : ∃ N : ℕ, l1 / lr ^ N < l2 := by
    obtain ⟨N, hN⟩ := pow_unbounded_of_one_lt (l1 / l2) hlr
    refine ⟨N, ?_⟩
    have hpos : (0 : ℚ) < lr ^ N := pow_pos (lt_trans zero_lt_one hlr) N
    rw [div_lt_iff₀ hpos]
    rw [div_lt_iff₀ hl2] at hN
    linarith [mul_comm (lr ^ N) l2]
  classical
  refine ⟨Nat.find hex, Nat.find_spec hex, ?_⟩
  intro k hk
  exact not_lt.mp (Nat.find_min hex hk)

/-- The terms `l1 / lr ^ k` decrease strictly when `l1 > 0` and `lr > 1`. -/
theorem schedule_strictAnti (l1 lr : ℚ) (hl1 : 0 < l1) (hlr : 1 < lr) {j k : ℕ} (hjk : j < k) :
    l1 / lr ^ k < l1 / lr ^ j := by
  have hpos : (0 : ℚ) < lr ^ j := pow_pos (lt_trans zero_lt_one hlr) j
  exact div_lt_div_of_pos_left hl1 hpos (pow_lt_pow_right₀ hlr hjk)

/-- When the division of every term at or above `l2` is exact, the values of the
loop are the terms `l1 / lr ^ k` up to the first one below `l2`. -/
theorem lambdaAt_exact (l1 l2 lr : ℚ)
    (hexact : ∀ k, l2 ≤ l1 / lr ^ k → rn (l1 / lr ^ k / lr) = l1 / lr ^ (k + 1)) (N : ℕ)
    (hmin : ∀ k, k < N → l2 ≤ l1 / lr ^ k) :
    ∀ k, k ≤ N → lambdaAt lr l1 k = l1 / lr ^ k := by
  intro k
  induction k with
  | zero => intro _; simp [lambdaAt]
  | succ k ih =>
    intro hk
    show rn (lambdaAt lr l1 k / lr) = _
    rw [ih (by omega), hexact k (hmin k (by omega))]

/-- The outcome of the lambda loop for `l2 > 0`, `lr > 1` and exact divisions:
the number `N` of passes, the outputs, and the facts that determine `N`. -/
theorem mainLoop_schedule {P : Type} [DecidableEq P] (E : Env P n0 n1 n2) (a e h : ℚ)
    (n : ℤ) (g : Form n0) (l1 l2 lr : ℚ) (s : Fields n0 n1)
    (hl2 : 0 < l2) (hlr : 1 < lr)
    (hexact : ∀ k, l2 ≤ l1 / lr ^ k → rn (l1 / lr ^ k / lr) = l1 / lr ^ (k + 1)) :
    ∃ outs s2, (∀ fuel, outs.length < fuel →
        mainLoop E a e h n g l2 lr fuel l1 s = some (outs, s2)) ∧
      outs.map Output.l = (List.range outs.length).map (fun k => l1 / lr ^ k) ∧
      l1 / lr ^ outs.length < l2 ∧ ∀ k, k < outs.length → l2 ≤ l1 / lr ^ k := by
  obtain ⟨N, hN, hmin⟩ := exists_first_below l1 l2 lr hl2 hlr
  have hval := lambdaAt_exact l1 l2 lr hexact N hmin
  obtain ⟨outs, s2, hrun, hmap⟩ := mainLoop_run E a e h n g l2 lr N l1 s
    (fun k hk => by rw [hval k hk.le]; exact hmin k hk) (by rw [hval N le_rfl]; exact hN)
  have hlen : outs.length = N := by
    have := congrArg List.length hmap
    simpa using this
  have hmap2 : outs.map Output.l = (List.range N).map (fun k => l1 / lr ^ k) := by
    rw [hmap]
    apply List.map_congr_left
    intro k hk
    exact hval k (List.mem_range.mp hk).le
  refine ⟨outs, s2, ?_, ?_, ?_, ?_⟩
  · intro fuel hf; exact hrun fuel (hlen ▸ hf)
  · rw [hlen]; exact hmap2
  · rw [hlen]; exact hN
  · rw [hlen]; exact hmin

/-- Dividing `m / 2^k` by 2 is exact for `|m| < 2^53` as long as no underflow
occurs. -/
theorem rn_half_dyadic (m : ℤ) (k : ℕ) (hm : |m| < 2 ^ 53) (hk : k + 1 ≤ 1074) :
    rn ((m : ℚ) / 2 ^ k / 2) = (m : ℚ) / 2 ^ (k + 1) := by
  have h := rn_of_dyadic m (k + 1) hm hk
  rw [pow_succ, ← div_div] at h
  rw [h, pow_succ, ← div_div]

theorem pow_two_small (c : ℚ) (k : ℕ) (hc : c < 8) (hk : 1 ≤ c / 2 ^ k) : k ≤ 2 := by
  by_contra hcon
  have h3 : 3 ≤ k := by omega
  have h8 : (2 : ℚ) ^ 3 ≤ 2 ^ k := pow_le_pow_right₀ (by norm_num) h3
  have hpos : (0 : ℚ) < 2 ^ k := pow_pos (by norm_num) k
  rw [le_div_iff₀ hpos] at hk
  norm_num at h8
  linarith

/-! ### C1 -/

/-- C1 (code defect). With `--lambda-1 1 --lambda-2 0 --lambda-ratio 2`, a
configuration that passes both clamps unchanged, the lambda loop of main never
exits: for every amount of fuel the run is still inside the loop. The claim says
that the loops terminate for every accepted configuration. -/
theorem C1_lambda_loop_never_exits_at_l2_zero :
    ∀ (n0 n1 n2 : ℕ) (E : Env (ℤ × ℤ) n0 n1 n2) (sqrt2 a e h : ℚ) (n : ℤ) (fuel : ℕ),
      atMain sqrt2 E ⟨none, 1, 0, 2, a, e, h, n⟩ fuel = none := by
  intro n0 n1 n2 E sqrt2 a e h n fuel
  have hclamp : clamp sqrt2 ⟨none, 1, 0, 2, a, e, h, n⟩ = (1, 0, 2) := by
    simp [clamp]
  simp only [atMain, hclamp]
  exact mainLoop_none_of_nonpos E a e h n _ 0 2 le_rfl (by norm_num) fuel 1 _ (by norm_num)

/-! ### C2 -/

/-- C2 (counterexample). With `l1 = 3`, `l2 = 1`, `lr = 2` on the two-pixel
image the loop makes 2 passes (lambda 3 and 3/2, both quotients exact doubles;
3/4 is below 1), while `⌈log_2 (3/1)⌉ + 1` is 3. -/
theorem C2_counterexample_ceil_overcounts :
    ∃ outs s2, mainLoop twoPixelEnv 1 1 1 10 (inputForm twoPixelEnv) 1 2 3 3
        ⟨(1 : ℚ) • inputForm twoPixelEnv, fun _ => 1⟩ = some (outs, s2) ∧
      outs.length = 2 ∧ ⌈Real.logb 2 (3 / 1)⌉ + 1 = 3 := by
  have h1 : lambdaAt 2 3 1 = 3 / 2 := by
    have h := rn_half_dyadic 3 0 (by norm_num) (by norm_num)
    norm_num at h
    simpa [lambdaAt] using h
  have h2 : lambdaAt 2 3 2 = 3 / 4 := by
    have h := rn_half_dyadic 3 1 (by norm_num) (by norm_num)
    norm_num at h
    show rn (lambdaAt 2 3 1 / 2) = 3 / 4
    rw [h1]
    norm_num
    exact h
  obtain ⟨outs, s2, hrun, hmap⟩ := mainLoop_run twoPixelEnv 1 1 1 10 (inputForm twoPixelEnv)
    1 2 2 3 ⟨(1 : ℚ) • inputForm twoPixelEnv, fun _ => 1⟩
    (by
      intro k hk
      interval_cases k
      · norm_num [lambdaAt]
      · rw [h1]; norm_num)
    (by rw [h2]; norm_num)
  refine ⟨outs, s2, hrun 3 (by norm_num), ?_, ?_⟩
  · have := congrArg List.length hmap
    simpa using this
  · have hceil : ⌈Real.logb 2 (3 / 1)⌉ = 2 := by
      rw [Int.ceil_eq_iff]
      constructor
      · rw [Real.lt_logb_iff_rpow_lt (by norm_num) (by norm_num)]
        norm_num
      · rw [Real.logb_le_iff_le_rpow (by norm_num) (by norm_num)]
        norm_num
    rw [hceil]
    norm_num

/-- C2 (amended). For `l1 ≥ l2 > 0` and `lr > 1` the number of passes of the
lambda loop (one report row and one pair of rasters each) is the index `N` of
the first value below `l2` in the sequence `l1, fl(l1/lr), fl(fl(l1/lr)/lr), ...`
of double quotients: if there is such an `N` the loop exits after exactly `N`
passes, and whenever the loop exits the number of its passes is that index.
When the division by `lr` of every term `l1 / lr ^ k` at or above `l2` is exact
in doubles, the loop exits and the number of passes is
`⌊log_lr (l1 / l2)⌋ + 1`. -/
theorem C2_lambda_loop_pass_count {P : Type} [DecidableEq P] (E : Env P n0 n1 n2)
    (a e h : ℚ) (n : ℤ) (g : Form n0) (l1 l2 lr : ℚ) (s : Fields n0 n1)
    (hl2 : 0 < l2) (h12 : l2 ≤ l1) (hlr : 1 < lr) :
    (∀ N, (∀ k, k < N → l2 ≤ lambdaAt lr l1 k) → lambdaAt lr l1 N < l2 →
      ∃ outs s2, (∀ fuel, N < fuel →
          mainLoop E a e h n g l2 lr fuel l1 s = some (outs, s2)) ∧
        outs.length = N) ∧
    (∀ (fuel : ℕ) (outs : List (Output P)) (s2 : Fields n0 n1),
      mainLoop E a e h n g l2 lr fuel l1 s = some (outs, s2) →
      (∀ k, k < outs.length → l2 ≤ lambdaAt lr l1 k) ∧ lambdaAt lr l1 outs.length < l2) ∧
    ((∀ k, l2 ≤ l1 / lr ^ k → rn (l1 / lr ^ k / lr) = l1 / lr ^ (k + 1)) →
      ∃ outs s2, (∀ fuel, outs.length < fuel →
          mainLoop E a e h n g l2 lr fuel l1 s = some (outs, s2)) ∧
        (outs.length : ℤ) = ⌊Real.logb (lr : ℝ) ((l1 : ℝ) / (l2 : ℝ))⌋ + 1) := by
  refine ⟨?_, ?_, ?_⟩
  · intro N hge hlt
    obtain ⟨outs, s2, hrun, hmap⟩ := mainLoop_run E a e h n g l2 lr N l1 s hge hlt
    refine ⟨outs, s2, hrun, ?_⟩
    have := congrArg List.length hmap
    simpa using this
  · intro fuel outs s2 hrun
    exact (mainLoop_exits E a e h n g l2 lr fuel l1 s outs s2 hrun).2
  intro hexact
  obtain ⟨outs, s2, hrun, -, hN, hmin⟩ :=
    mainLoop_schedule E a e h n g l1 l2 lr s hl2 hlr hexact
  refine ⟨outs, s2, hrun, ?_⟩
  have hlrR : (1 : ℝ) < (lr : ℝ) := by exact_mod_cast hlr
  have hl2R : (0 : ℝ) < (l2 : ℝ) := by exact_mod_cast hl2
  have hl1R : (0 : ℝ) < (l1 : ℝ) := by exact_mod_cast lt_of_lt_of_le hl2 h12
  have hq : (0 : ℝ) < (l1 : ℝ) / (l2 : ℝ) := div_pos hl1R hl2R
  have hpowpos : ∀ k : ℕ, (0 : ℝ) < (lr : ℝ) ^ k := fun k => pow_pos (lt_trans zero_lt_one hlrR) k
  have hpos : 0 < outs.length := by
    rcases Nat.eq_zero_or_pos outs.length with h0 | h0
    · rw [h0] at hN
      simp only [pow_zero, div_one] at hN
      exact absurd hN (not_lt.mpr h12)
    · exact h0
  obtain ⟨m, hm⟩ := Nat.exists_eq_succ_of_ne_zero (Nat.pos_iff_ne_zero.mp hpos)
  have hlast := hmin m (by omega)
  rw [hm] at hN
  have hfloor : ⌊Real.logb (lr : ℝ) ((l1 : ℝ) / (l2 : ℝ))⌋ = (m : ℤ) := by
    rw [Int.floor_eq_iff]
    constructor
    · have h1 : ((lr : ℝ)) ^ m ≤ (l1 : ℝ) / (l2 : ℝ) := by
        have h2 : (l2 : ℝ) ≤ (l1 : ℝ) / (lr : ℝ) ^ m := by exact_mod_cast hlast
        rw [le_div_iff₀ (hpowpos m)] at h2
        rw [le_div_iff₀ hl2R]
        linarith [mul_comm ((lr : ℝ) ^ m) (l2 : ℝ)]
      have h3 : ((m : ℤ) : ℝ) = ((m : ℕ) : ℝ) := by norm_cast
      rw [h3, Real.le_logb_iff_rpow_le hlrR hq, Real.rpow_natCast]
      exact h1
    · have h1 : (l1 : ℝ) / (l2 : ℝ) < ((lr : ℝ)) ^ (m + 1) := by
        have h2 : (l1 : ℝ) / (lr : ℝ) ^ (m + 1) < (l2 : ℝ) := by exact_mod_cast hN
        rw [div_lt_iff₀ (hpowpos (m + 1))] at h2
        rw [div_lt_iff₀ hl2R]
        linarith [mul_comm ((lr : ℝ) ^ (m + 1)) (l2 : ℝ)]
      have h3 : ((m : ℤ) : ℝ) + 1 = ((m + 1 : ℕ) : ℝ) := by push_cast; ring
      rw [h3, Real.logb_lt_iff_lt_rpow hlrR hq, Real.rpow_natCast]
      exact h1
  rw [hfloor, hm]
  push_cast
  ring

/-- C2 (amended), at `l1 = 3`, `l2 = 1`, `lr = 2` on the two-pixel image: the
two divisions, 3/2 and 3/4, are exact, and the loop makes `⌊log_2 3⌋ + 1` passes. -/
theorem C2_lambda_loop_pass_count_witness :
    ∃ outs s2, (∀ fuel, outs.length < fuel →
        mainLoop twoPixelEnv 1 1 1 10 (inputForm twoPixelEnv) 1 2 fuel 3
          ⟨(1 : ℚ) • inputForm twoPixelEnv, fun _ => 1⟩ = some (outs, s2)) ∧
      (outs.length : ℤ) = ⌊Real.logb ((2 : ℚ) : ℝ) (((3 : ℚ) : ℝ) / ((1 : ℚ) : ℝ))⌋ + 1 :=
  (C2_lambda_loop_pass_count twoPixelEnv 1 1 1 10 (inputForm twoPixelEnv) 3 1 2
    ⟨(1 : ℚ) • inputForm twoPixelEnv, fun _ => 1⟩ (by norm_num) (by norm_num)
    (by norm_num)).2.2
    (fun k hk => by
      have hk2 := pow_two_small 3 k (by norm_num) hk
      have h := rn_half_dyadic 3 k (by norm_num) (by omega)
      push_cast at h
      exact h)

/-- The double nearest to 1/10, and the double nearest to its tenth. -/
theorem rn_tenth :
    rn (1 / 10) = 3602879701896397 / 36028797018963968 ∧
    rn (3602879701896397 / 36028797018963968 / 10)
      = 5764607523034235 / 576460752303423488 := by
  constructor
  · have hk : ulpExp (1 / 10) = -4 - 52 :=
      ulpExp_eq _ (-4) (by norm_num) (by norm_num [abs_of_pos]) (by norm_num [abs_of_pos])
    rw [rn_eval (1 / 10) (-4 - 52) 7205759403792794 hk (by norm_num [abs_lt])]
    norm_num
  · have hk : ulpExp (3602879701896397 / 36028797018963968 / 10) = -7 - 52 :=
      ulpExp_eq _ (-7) (by norm_num) (by norm_num [abs_of_pos]) (by norm_num [abs_of_pos])
    rw [rn_eval _ (-7 - 52) 5764607523034235 hk (by norm_num [abs_lt])]
    norm_num

/-! ### C3 -/

/-- C3 (counterexample). With `l1 = 1`, `lr = 10` and `l2` the double nearest to
0.1 (`--lambda-1 1 --lambda-2 0.1 --lambda-ratio 10`) the loop makes two passes:
the second uses the double quotient of 1 by 10, which is `l2` itself and not
`1/10`, although the term `l1 / lr^1 = 1/10` is below `l2`. -/
theorem C3_counterexample_rounded_quotient :
    ∃ outs s2, mainLoop twoPixelEnv 1 1 1 10 (inputForm twoPixelEnv)
        (3602879701896397 / 36028797018963968) 10 3 1
        ⟨(1 : ℚ) • inputForm twoPixelEnv, fun _ => 1⟩ = some (outs, s2) ∧
      outs.map Output.l = [1, 3602879701896397 / 36028797018963968] ∧
      (1 : ℚ) / 10 ^ 1 < 3602879701896397 / 36028797018963968 := by
  have h1 : lambdaAt 10 1 1 = 3602879701896397 / 36028797018963968 := by
    show rn (1 / 10) = _
    exact rn_tenth.1
  have h2 : lambdaAt 10 1 2 = 5764607523034235 / 576460752303423488 := by
    show rn (lambdaAt 10 1 1 / 10) = _
    rw [h1]
    exact rn_tenth.2
  obtain ⟨outs, s2, hrun, hmap⟩ := mainLoop_run twoPixelEnv 1 1 1 10 (inputForm twoPixelEnv)
    (3602879701896397 / 36028797018963968) 10 2 1
    ⟨(1 : ℚ) • inputForm twoPixelEnv, fun _ => 1⟩
    (by
      intro k hk
      interval_cases k
      · norm_num [lambdaAt]
      · rw [h1])
    (by rw [h2]; norm_num)
  refine ⟨outs, s2, hrun 3 (by norm_num), ?_, by norm_num⟩
  have h0 : lambdaAt 10 1 0 = 1 := rfl
  rw [hmap]
  simp only [List.range_succ, List.range_zero, List.nil_append, List.map_append,
    List.map_cons, List.map_nil, List.singleton_append, h0, h1]

/-- C3 (amended). For `l1 ≥ l2 > 0` and `lr > 1`, pass `k` of the lambda loop
uses the value `lambdaAt lr l1 k`, which is `l1` divided `k` times by `lr` in
doubles: if `N` is the index of the first such value below `l2`, the loop exits
after the passes `k < N`, which use these values in order; and whenever the loop
exits, the values it has used are these, every one of them is at least `l2`, and
it has stopped at the first one below `l2`, which is not used. When the division
by `lr` of every term `l1 / lr ^ k` at or above `l2` is exact, the loop exits;
pass `k` uses `l1 / lr ^ k`; the values used decrease strictly; each is at least
`l2`; a term equal to `l2` is used; the first term below `l2` ends the loop and
is not used. -/
theorem C3_lambda_schedule {P : Type} [DecidableEq P] (E : Env P n0 n1 n2)
    (a e h : ℚ) (n : ℤ) (g : Form n0) (l1 l2 lr : ℚ) (s : Fields n0 n1)
    (hl2 : 0 < l2) (h12 : l2 ≤ l1) (hlr : 1 < lr) :
    (∀ N, (∀ k, k < N → l2 ≤ lambdaAt lr l1 k) → lambdaAt lr l1 N < l2 →
      ∃ outs s2, (∀ fuel, N < fuel →
          mainLoop E a e h n g l2 lr fuel l1 s = some (outs, s2)) ∧
        outs.map Output.l = (List.range N).map (lambdaAt lr l1)) ∧
    (∀ (fuel : ℕ) (outs : List (Output P)) (s2 : Fields n0 n1),
      mainLoop E a e h n g l2 lr fuel l1 s = some (outs, s2) →
      outs.map Output.l = (List.range outs.length).map (lambdaAt lr l1) ∧
      (∀ k, k < outs.length → l2 ≤ lambdaAt lr l1 k) ∧
      lambdaAt lr l1 outs.length < l2) ∧
    ((∀ k, l2 ≤ l1 / lr ^ k → rn (l1 / lr ^ k / lr) = l1 / lr ^ (k + 1)) →
      ∃ outs s2, (∀ fuel, outs.length < fuel →
          mainLoop E a e h n g l2 lr fuel l1 s = some (outs, s2)) ∧
        (∀ k (hk : k < outs.length), (outs.get ⟨k, hk⟩).l = l1 / lr ^ k) ∧
        (outs.map Output.l).Pairwise (fun x y => y < x) ∧
        (∀ o ∈ outs, l2 ≤ o.l) ∧
        (∀ k, l1 / lr ^ k = l2 → k < outs.length) ∧
        l1 / lr ^ outs.length < l2 ∧
        (∀ k, k < outs.length → ¬ l1 / lr ^ k < l2)) := by
  refine ⟨fun N hge hlt => mainLoop_run E a e h n g l2 lr N l1 s hge hlt,
    fun fuel outs s2 hrun => mainLoop_exits E a e h n g l2 lr fuel l1 s outs s2 hrun, ?_⟩
  intro hexact
  obtain ⟨outs, s2, hrun, hmap, hN, hmin⟩ :=
    mainLoop_schedule E a e h n g l1 l2 lr s hl2 hlr hexact
  have hl1 : 0 < l1 := lt_of_lt_of_le hl2 h12
  have hget : ∀ k (hk : k < outs.length), (outs.get ⟨k, hk⟩).l = l1 / lr ^ k := by
    intro k hk
    have h1 : (outs.map Output.l)[k]? = some (outs.get ⟨k, hk⟩).l := by
      simp [List.getElem?_map, List.getElem?_eq_getElem hk]
    rw [hmap] at h1
    simp [List.getElem?_map, List.getElem?_range hk] at h1
    exact h1.symm
  refine ⟨outs, s2, hrun, hget, ?_, ?_, ?_, hN, fun k hk => not_lt.mpr (hmin k hk)⟩
  · rw [hmap, List.pairwise_map]
    exact (List.pairwise_lt_range outs.length).imp
      (fun hjk => schedule_strictAnti l1 lr hl1 hlr hjk)
  · intro o ho
    obtain ⟨i, hi⟩ := List.get_of_mem ho
    rw [← hi, hget i.val i.isLt]
    exact hmin i.val i.isLt
  · intro k hk
    by_contra hnot
    have hle : outs.length ≤ k := not_lt.mp hnot
    rcases Nat.eq_or_lt_of_le hle with heq | hlt
    · rw [heq, hk] at hN
      exact lt_irrefl _ hN
    · have := schedule_strictAnti l1 lr hl1 hlr hlt
      rw [hk] at this
      exact lt_irrefl _ (lt_trans this hN)

/-- C3 (amended) at `l1 = 2`, `l2 = 1`, `lr = 2` on the two-pixel image: the
divisions 2/2 and 1/2 are exact, and the term equal to `l2` is used. -/
theorem C3_lambda_schedule_witness :
    ∃ outs s2, (∀ fuel, outs.length < fuel →
        mainLoop twoPixelEnv 1 1 1 10 (inputForm twoPixelEnv) 1 2 fuel 2
          ⟨(1 : ℚ) • inputForm twoPixelEnv, fun _ => 1⟩ = some (outs, s2)) ∧
      (∀ k (hk : k < outs.length), (outs.get ⟨k, hk⟩).l = 2 / 2 ^ k) ∧
      (outs.map Output.l).Pairwise (fun x y => y < x) ∧
      (∀ o ∈ outs, (1 : ℚ) ≤ o.l) ∧
      (∀ k, (2 : ℚ) / 2 ^ k = 1 → k < outs.length) ∧
      (2 : ℚ) / 2 ^ outs.length < 1 ∧
      (∀ k, k < outs.length → ¬ (2 : ℚ) / 2 ^ k < 1) :=
  (C3_lambda_schedule twoPixelEnv 1 1 1 10 (inputForm twoPixelEnv) 2 1 2
    ⟨(1 : ℚ) • inputForm twoPixelEnv, fun _ => 1⟩ (by norm_num) (by norm_num)
    (by norm_num)).2.2
    (fun k hk => by
      have hk2 := pow_two_small 2 k (by norm_num) hk
      have h := rn_half_dyadic 2 k (by norm_num) (by omega)
      push_cast at h
      exact h)

/-! ## Coordinate descent -/

theorem foldl_max_lt_iff {α : Type} (f : α → ℚ) (t : ℚ) :
    ∀ (xs : List α) (a0 : ℚ),
      xs.foldl (fun acc x => max acc (f x)) a0 < t ↔ a0 < t ∧ ∀ x ∈ xs, f x < t := by
  intro xs
  induction xs with
  | nil => intro a0; simp
  | cons x rest ih =>
    intro a0
    rw [List.foldl_cons, ih (max a0 (f x)), max_lt_iff]
    constructor
    · rintro ⟨⟨h1, h2⟩, h3⟩
      refine ⟨h1, ?_⟩
      intro y hy
      rcases List.mem_cons.mp hy with rfl | hy2
      · exact h2
      · exact h3 y hy2
    · rintro ⟨h1, h2⟩
      exact ⟨⟨h1, h2 x (List.mem_cons_self x rest)⟩,
        fun y hy => h2 y (List.mem_cons_of_mem x hy)⟩

/-- The logged variation is below a positive bound exactly when every 1-cell
changed by less than the bound: `n_infty` is the sup-norm of the change. -/
theorem n_infty_lt_iff (v former_v : Form n1) (t : ℚ) (ht : 0 < t) :
    n_infty v former_v < t ↔ ∀ index, |v index - former_v index| < t := by
  unfold n_infty
  rw [foldl_max_lt_iff (fun index => |v index - former_v index|) t (List.finRange n1) 0]
  constructor
  · rintro ⟨-, h2⟩ index
    exact h2 index (List.mem_finRange index)
  · intro h2
    exact ⟨ht, fun index _ => h2 index⟩

theorem cdIterate_shift (c : Calculus n0 n1 n2) (S : Solvers n0 n1) (a h l eps : ℚ)
    (ag : Form n0) (bb : LinOp n1 n1) (s : Fields n0 n1) :
    ∀ j, cdIterate c S a h l eps ag bb s (j + 1) =
      cdIterate c S a h l eps ag bb (cdIteration c S a h l eps ag bb s).1 j := by
  intro j
  induction j with
  | zero => rfl
  | succ j ih =>
    show (cdIteration c S a h l eps ag bb (cdIterate c S a h l eps ag bb s (j + 1))).1 = _
    rw [ih]
    rfl

theorem cdDelta_shift (c : Calculus n0 n1 n2) (S : Solvers n0 n1) (a h l eps : ℚ)
    (ag : Form n0) (bb : LinOp n1 n1) (s : Fields n0 n1) (j : ℕ) :
    cdDelta c S a h l eps ag bb s (j + 1) =
      cdDelta c S a h l eps ag bb (cdIteration c S a h l eps ag bb s).1 j := by
  unfold cdDelta
  rw [cdIterate_shift]

theorem cdLoop_stop (c : Calculus n0 n1 n2) (S : Solvers n0 n1) (a h l eps : ℚ)
    (ag : Form n0) (bb : LinOp n1 n1) (k : ℕ) (s : Fields n0 n1)
    (hlt : (cdIteration c S a h l eps ag bb s).2 < 1 / 10000) :
    cdLoop c S a h l eps ag bb (k + 1) s =
      ((cdIteration c S a h l eps ag bb s).1, [(cdIteration c S a h l eps ag bb s).2]) := by
  simp only [cdLoop, hlt, if_true]

theorem cdLoop_continue (c : Calculus n0 n1 n2) (S : Solvers n0 n1) (a h l eps : ℚ)
    (ag : Form n0) (bb : LinOp n1 n1) (k : ℕ) (s : Fields n0 n1)
    (hge : ¬ (cdIteration c S a h l eps ag bb s).2 < 1 / 10000) :
    cdLoop c S a h l eps ag bb (k + 1) s =
      ((cdLoop c S a h l eps ag bb k (cdIteration c S a h l eps ag bb s).1).1,
        (cdIteration c S a h l eps ag bb s).2 ::
          (cdLoop c S a h l eps ag bb k (cdIteration c S a h l eps ag bb s).1).2) := by
  simp only [cdLoop, hge, if_false]

/-- The coordinate-descent loop against the unbroken iteration: the number of
passes is at most the cap, the fields at exit are those of that many passes,
the log holds their variations, only the last logged variation can be below
`1e-4`, and an exit below the cap ends on a variation below `1e-4`. -/
theorem cdLoop_spec (c : Calculus n0 n1 n2) (S : Solvers n0 n1) (a h l eps : ℚ)
    (ag : Form n0) (bb : LinOp n1 n1) :
    ∀ (n : ℕ) (s : Fields n0 n1),
      (cdLoop c S a h l eps ag bb n s).2.length ≤ n ∧
      (cdLoop c S a h l eps ag bb n s).1 =
        cdIterate c S a h l eps ag bb s (cdLoop c S a h l eps ag bb n s).2.length ∧
      (∀ j, j < (cdLoop c S a h l eps ag bb n s).2.length →
        (cdLoop c S a h l eps ag bb n s).2[j]? = some (cdDelta c S a h l eps ag bb s j)) ∧
      (∀ j, j + 1 < (cdLoop c S a h l eps ag bb n s).2.length →
        ¬ cdDelta c S a h l eps ag bb s j < 1 / 10000) ∧
      ((cdLoop c S a h l eps ag bb n s).2.length < n →
        0 < (cdLoop c S a h l eps ag bb n s).2.length ∧
        cdDelta c S a h l eps ag bb s ((cdLoop c S a h l eps ag bb n s).2.length - 1)
          < 1 / 10000) := by
  intro n
  induction n with
  | zero =>
    intro s
    refine ⟨le_rfl, rfl, ?_, ?_, ?_⟩
    · intro j hj; exact absurd hj (Nat.not_lt_zero j)
    · intro j hj; exact absurd hj (Nat.not_lt_zero _)
    · intro hj; exact absurd hj (Nat.not_lt_zero _)
  | succ k ih =>
    intro s
    by_cases hlt : (cdIteration c S a h l eps ag bb s).2 < 1 / 10000
    · rw [cdLoop_stop c S a h l eps ag bb k s hlt]
      refine ⟨by simp, rfl, ?_, ?_, ?_⟩
      · intro j hj
        have hj0 : j = 0 := by simpa using hj
        subst hj0
        rfl
      · intro j hj
        simp at hj
      · intro _
        exact ⟨by simp, hlt⟩
    · rw [cdLoop_continue c S a h l eps ag bb k s hlt]
      obtain ⟨h1, h2, h3, h4, h5⟩ := ih (cdIteration c S a h l eps ag bb s).1
      refine ⟨by simpa using h1, ?_, ?_, ?_, ?_⟩
      · simp only [List.length_cons]
        rw [cdIterate_shift]
        exact h2
      · intro j hj
        cases j with
        | zero =>
          show (_ :: _)[0]? = _
          rw [List.getElem?_cons_zero]
          rfl
        | succ j =>
          simp only [List.length_cons, Nat.succ_lt_succ_iff] at hj
          show (_ :: _)[j + 1]? = _
          rw [List.getElem?_cons_succ, cdDelta_shift]
          exact h3 j hj
      · intro j hj
        cases j with
        | zero => exact hlt
        | succ j =>
          simp only [List.length_cons, Nat.succ_lt_succ_iff] at hj
          rw [cdDelta_shift]
          exact h4 j hj
      · intro hj
        simp only [List.length_cons, Nat.succ_lt_succ_iff] at hj
        obtain ⟨hpos, hd⟩ := h5 hj
        refine ⟨by simp, ?_⟩
        simp only [List.length_cons, Nat.add_sub_cancel]
        obtain ⟨m, hm⟩ := Nat.exists_eq_succ_of_ne_zero (Nat.pos_iff_ne_zero.mp hpos)
        rw [hm] at hd ⊢
        rw [cdDelta_shift]
        simpa using hd

theorem cdDelta_eq (c : Calculus n0 n1 n2) (S : Solvers n0 n1) (a h l eps : ℚ)
    (ag : Form n0) (bb : LinOp n1 n1) (s : Fields n0 n1) (j : ℕ) :
    cdDelta c S a h l eps ag bb s j =
      n_infty (cdIterate c S a h l eps ag bb s (j + 1)).v
        (cdIterate c S a h l eps ag bb s j).v := rfl

/-! ### C4 -/

/-- C4. With arbitrary solvers and any cap `n`, the coordinate-descent loop runs
at most `n` passes and leaves the fields of that many passes; the variation it
logs in pass `j` is the sup-norm of the change of `v` in that pass; it runs
exactly `i + 1` passes (for `i < n`) iff no earlier pass had a variation below
`1e-4` and pass `i` either has one or is the last allowed; so when it exits
after fewer than `n` passes, at least one pass ran and the change of `v` between
the last two iterates is below `1e-4`. -/
theorem C4_coordinate_descent_exit (c : Calculus n0 n1 n2) (S : Solvers n0 n1)
    (a h l eps : ℚ) (ag : Form n0) (bb : LinOp n1 n1) (n : ℕ) (s : Fields n0 n1) :
    (cdLoop c S a h l eps ag bb n s).2.length ≤ n ∧
    (cdLoop c S a h l eps ag bb n s).1 =
      cdIterate c S a h l eps ag bb s (cdLoop c S a h l eps ag bb n s).2.length ∧
    (∀ j, j < (cdLoop c S a h l eps ag bb n s).2.length →
      (cdLoop c S a h l eps ag bb n s).2[j]? =
        some (n_infty (cdIterate c S a h l eps ag bb s (j + 1)).v
          (cdIterate c S a h l eps ag bb s j).v)) ∧
    (∀ j, n_infty (cdIterate c S a h l eps ag bb s (j + 1)).v
          (cdIterate c S a h l eps ag bb s j).v < 1 / 10000 ↔
        ∀ index, |(cdIterate c S a h l eps ag bb s (j + 1)).v index
          - (cdIterate c S a h l eps ag bb s j).v index| < 1 / 10000) ∧
    (∀ i, i < n → ((cdLoop c S a h l eps ag bb n s).2.length = i + 1 ↔
        (∀ j, j < i → ¬ n_infty (cdIterate c S a h l eps ag bb s (j + 1)).v
          (cdIterate c S a h l eps ag bb s j).v < 1 / 10000) ∧
        (n_infty (cdIterate c S a h l eps ag bb s (i + 1)).v
          (cdIterate c S a h l eps ag bb s i).v < 1 / 10000 ∨ i + 1 = n))) ∧
    ((cdLoop c S a h l eps ag bb n s).2.length < n →
      0 < (cdLoop c S a h l eps ag bb n s).2.length ∧
      n_infty (cdIterate c S a h l eps ag bb s (cdLoop c S a h l eps ag bb n s).2.length).v
        (cdIterate c S a h l eps ag bb s
          ((cdLoop c S a h l eps ag bb n s).2.length - 1)).v < 1 / 10000) := by
  obtain ⟨h1, h2, h3, h4, h5⟩ := cdLoop_spec c S a h l eps ag bb n s
  simp only [cdDelta_eq] at h3 h4 h5
  refine ⟨h1, h2, h3, ?_, ?_, ?_⟩
  · intro j
    exact n_infty_lt_iff _ _ (1 / 10000) (by norm_num)
  · intro i hi
    constructor
    · intro hlen
      refine ⟨fun j hj => h4 j (by omega), ?_⟩
      by_cases hcap : i + 1 = n
      · exact Or.inr hcap
      · left
        have := (h5 (by omega)).2
        rw [hlen] at this
        simpa using this
    · rintro ⟨hearly, hlast⟩
      by_contra hne
      rcases Nat.lt_or_gt_of_ne hne with hshort | hlong
      · obtain ⟨hpos, hd⟩ := h5 (by omega)
        obtain ⟨m, hm⟩ := Nat.exists_eq_succ_of_ne_zero (Nat.pos_iff_ne_zero.mp hpos)
        rw [hm] at hd
        simp only [Nat.succ_eq_add_one, Nat.add_sub_cancel] at hd
        exact hearly m (by omega) hd
      · rcases hlast with hd | hcap
        · exact h4 i hlong hd
        · omega
  · intro hlt
    obtain ⟨hpos, hd⟩ := h5 hlt
    refine ⟨hpos, ?_⟩
    obtain ⟨m, hm⟩ := Nat.exists_eq_succ_of_ne_zero (Nat.pos_iff_ne_zero.mp hpos)
    rw [hm] at hd ⊢
    simpa using hd

/-! ## Forms to images -/

theorem le_cround (y : ℚ) (z : ℤ) (hz : (z : ℚ) ≤ y) : z ≤ cround y := by
  unfold cround
  split_ifs with h0
  · rw [Int.le_floor]
    linarith
  · have h1 : z - 1 < ⌈y - 1 / 2⌉ := by
      rw [Int.lt_ceil]
      push_cast
      linarith
    omega

theorem cround_le (y : ℚ) (z : ℤ) (hz : y ≤ (z : ℚ)) : cround y ≤ z := by
  unfold cround
  split_ifs with h0
  · have h1 : ⌊y + 1 / 2⌋ < z + 1 := by
      rw [Int.floor_lt]
      push_cast
      linarith
    omega
  · rw [Int.ceil_le]
    linarith

/-- The function `cround` picks a nearest integer. -/
theorem cround_near (y : ℚ) : |(cround y : ℚ) - y| ≤ 1 / 2 := by
  unfold cround
  rw [abs_le]
  split_ifs with h0
  · have h1 := Int.floor_le (y + 1 / 2)
    have h2 := Int.lt_floor_add_one (y + 1 / 2)
    constructor <;> linarith
  · have h1 := Int.le_ceil (y - 1 / 2)
    have h2 := Int.ceil_lt_add_one (y - 1 / 2)
    constructor <;> linarith

/-- Halves go away from zero. -/
theorem cround_half (m : ℤ) : cround ((m : ℚ) + 1 / 2) = if 0 ≤ m then m + 1 else m := by
  unfold cround
  by_cases hm : 0 ≤ m
  · have h0 : (0 : ℚ) ≤ (m : ℚ) + 1 / 2 := by
      have : (0 : ℚ) ≤ (m : ℚ) := by exact_mod_cast hm
      linarith
    rw [if_pos h0, if_pos hm]
    have : (m : ℚ) + 1 / 2 + 1 / 2 = ((m + 1 : ℤ) : ℚ) := by push_cast; ring
    rw [this, Int.floor_intCast]
  · have hm1 : m ≤ -1 := by omega
    have h0 : ¬ (0 : ℚ) ≤ (m : ℚ) + 1 / 2 := by
      have : (m : ℚ) ≤ -1 := by exact_mod_cast hm1
      intro hc
      linarith
    rw [if_neg h0, if_neg hm]
    have : (m : ℚ) + 1 / 2 - 1 / 2 = ((m : ℤ) : ℚ) := by ring
    rw [this, Int.ceil_intCast]

/-- A product inside the int range is below `2^53` in size. -/
theorem abs_lt_of_int_range (y : ℚ) (hlo : -2147483648 ≤ y) (hhi : y ≤ 2147483647) :
    |y| < 2 ^ 53 := by
  rw [abs_lt]
  constructor <;> norm_num <;> linarith

/-- Inside the int range the conversion is defined and the pixel is the clamped
rounding of the double product. -/
theorem pixelValue_eq (x : ℚ) (hlo : -2147483648 ≤ x * 255) (hhi : x * 255 ≤ 2147483647) :
    pixelValue x = some (max 0 (min 255 (cround (rn (x * 255))))) := by
  have hsize := abs_lt_of_int_range (x * 255) hlo hhi
  have hlo2 : ((-2147483648 : ℤ) : ℚ) ≤ rn (x * 255) :=
    int_le_rn _ _ hsize (by push_cast; linarith)
  have hhi2 : rn (x * 255) ≤ ((2147483647 : ℤ) : ℚ) :=
    rn_le_int _ _ hsize (by push_cast; linarith)
  have h1 : (-2147483648 : ℤ) ≤ cround (rn (x * 255)) := le_cround _ _ hlo2
  have h2 : cround (rn (x * 255)) ≤ (2147483647 : ℤ) := cround_le _ _ hhi2
  simp [pixelValue, toInt, h1, h2]

/-- The loop over the cells: cells in range are all written, a point that is no
cell of the list keeps its value, and with distinct cells at distinct points
each cell holds its own pixel at the end. -/
theorem writeCells_spec {P : Type} [DecidableEq P] {n : ℕ} (coords : Fin n → P) (f : Form n)
    (hinj : Function.Injective coords) :
    ∀ (cells : List (Fin n)) (image : Image P),
      (∀ j ∈ cells, -2147483648 ≤ f j * 255 ∧ f j * 255 ≤ 2147483647) → cells.Nodup →
      ∃ img, writeCells coords f cells image = some img ∧
        (∀ p, (∀ j ∈ cells, coords j ≠ p) → img p = image p) ∧
        (∀ j ∈ cells, img (coords j) = max 0 (min 255 (cround (rn (f j * 255))))) := by
  intro cells
  induction cells with
  | nil =>
    intro image _ _
    exact ⟨image, rfl, fun _ _ => rfl, fun j hj => absurd hj (List.not_mem_nil j)⟩
  | cons index rest ih =>
    intro image hrange hnodup
    have hpix := pixelValue_eq (f index) (hrange index (List.mem_cons_self _ _)).1
      (hrange index (List.mem_cons_self _ _)).2
    obtain ⟨hnotin, hnodup2⟩ := List.nodup_cons.mp hnodup
    obtain ⟨img, hrun, hkeep, hset⟩ :=
      ih (setValue image (coords index) (max 0 (min 255 (cround (rn (f index * 255))))))
        (fun j hj => hrange j (List.mem_cons_of_mem _ hj)) hnodup2
    refine ⟨img, ?_, ?_, ?_⟩
    · simp only [writeCells, hpix]
      exact hrun
    · intro p hp
      rw [hkeep p (fun j hj => hp j (List.mem_cons_of_mem _ hj))]
      have : p ≠ coords index := fun hc => hp index (List.mem_cons_self _ _) hc.symm
      simp [setValue, this]
    · intro j hj
      rcases List.mem_cons.mp hj with rfl | hj2
      · rw [hkeep (coords j) (fun i hi hc => hnotin (hinj hc ▸ hi))]
        simp [setValue]
      · exact hset j hj2

theorem PrimalForm0ToImage_pixel {P : Type} [DecidableEq P] {n : ℕ} (sCoords : Fin n → P)
    (u : Form n) (image : Image P) (hinj : Function.Injective sCoords)
    (hrange : ∀ j, -2147483648 ≤ u j * 255 ∧ u j * 255 ≤ 2147483647) (index : Fin n) :
    ∃ m, PrimalForm0ToImage sCoords u image = some m ∧
      m.image (sCoords index) = max 0 (min 255 (cround (rn (u index * 255)))) := by
  obtain ⟨img, hrun, -, hset⟩ := writeCells_spec sCoords u hinj (List.finRange n) image
    (fun j _ => hrange j) (List.nodup_finRange n)
  have hn : 0 < n := Nat.lt_of_le_of_lt (Nat.zero_le _) index.isLt
  have hm : ∃ m, PrimalForm0ToImage sCoords u image = some m ∧ m.image = img := by
    simp only [PrimalForm0ToImage, hn, dif_pos, hrun, Option.map_some']
    exact ⟨_, rfl, rfl⟩
  obtain ⟨m, hm1, hm2⟩ := hm
  exact ⟨m, hm1, by rw [hm2]; exact hset index (List.mem_finRange index)⟩

theorem PrimalForm1ToImage_pixel {P : Type} [DecidableEq P] {n : ℕ} (sKCoords : Fin n → P)
    (v : Form n) (image : Image P) (hinj : Function.Injective sKCoords)
    (hrange : ∀ j, -2147483648 ≤ v j * 255 ∧ v j * 255 ≤ 2147483647) (index : Fin n) :
    ∃ m, PrimalForm1ToImage sKCoords v image = some m ∧
      m.image (sKCoords index) = max 0 (min 255 (cround (rn (v index * 255)))) ∧
      ∀ p, (∀ j, sKCoords j ≠ p) → m.image p = 255 := by
  obtain ⟨img, hrun, hkeep, hset⟩ := writeCells_spec sKCoords v hinj (List.finRange n)
    (fun _ => 255) (fun j _ => hrange j) (List.nodup_finRange n)
  have hn : 0 < n := Nat.lt_of_le_of_lt (Nat.zero_le _) index.isLt
  have hm : ∃ m, PrimalForm1ToImage sKCoords v image = some m ∧ m.image = img := by
    simp only [PrimalForm1ToImage, hn, dif_pos, hrun, Option.map_some']
    exact ⟨_, rfl, rfl⟩
  obtain ⟨m, hm1, hm2⟩ := hm
  exact ⟨m, hm1, by rw [hm2]; exact hset index (List.mem_finRange index),
    fun p hp => by rw [hm2]; exact hkeep p (fun j _ => hp j)⟩

/-- The pixel product of the form value `0.5 * (1/255.0)`: its exact value is
below 1/2 by `2^(-57)`, the double product is 1/2. -/
theorem rn_pixel_half :
    rn (282578800148737 / 144115188075855872 * 255) = 1 / 2 := by
  have hk : ulpExp (282578800148737 / 144115188075855872 * 255) = -2 - 52 :=
    ulpExp_eq _ (-2) (by norm_num) (by norm_num [abs_of_pos]) (by norm_num [abs_of_pos])
  rw [rn_eval _ (-2 - 52) 9007199254740992 hk (by norm_num [abs_lt])]
  norm_num

/-! ### C5 -/

/-- C5 (counterexample). For the form value `x = 0.5 * (1/255.0)`, a double in
`[0, 1]` (grey level 1 with `alpha = 0.5`), the product `x * 255.0` is exactly
0.5 as a double, so the program writes the pixel 1, while `255 x` is below 1/2
and `max(0, min(255, round(255 x)))` is 0. -/
theorem C5_counterexample_double_product :
    pixelValue (282578800148737 / 144115188075855872) = some 1 ∧
      max 0 (min 255 (cround (282578800148737 / 144115188075855872 * 255))) = 0 ∧
      (0 : ℚ) ≤ 282578800148737 / 144115188075855872 ∧
      (282578800148737 / 144115188075855872 : ℚ) ≤ 1 := by
  have hc1 : cround (1 / 2) = 1 := by
    have h := cround_half 0
    norm_num at h
    exact h
  have hc0 : cround (282578800148737 / 144115188075855872 * 255) = 0 := by
    unfold cround
    rw [if_pos (by norm_num), Int.floor_eq_iff]
    constructor <;> norm_num
  refine ⟨?_, ?_, by norm_num, by norm_num⟩
  · rw [pixelValue_eq _ (by norm_num) (by norm_num), rn_pixel_half, hc1]
    rfl
  · rw [hc0]
    rfl

/-- C5 (amended). For a form value `x` with `255 x` in the int range: the pixel is
`max(0, min(255, round(y)))` where `y` is the double product `x * 255.0` and
`round` picks an integer nearest to `y` and sends halves away from zero; it lies
in `[0, 255]`, is 0 for `x ≤ 0`, 255 for `x ≥ 1` and the unclamped `round(y)` for
`x` in `[0, 1]`; and both mappers write, at the point of a cell whose value is
`x`, that pixel, whatever the other values of the form are (its minimum and
maximum play no part), `PrimalForm1ToImage` on a background of 255. -/
theorem C5_pixel_scaling (x : ℚ) (hlo : -2147483648 ≤ x * 255) (hhi : x * 255 ≤ 2147483647) :
    pixelValue x = some (max 0 (min 255 (cround (rn (x * 255))))) ∧
    |(cround (rn (x * 255)) : ℚ) - rn (x * 255)| ≤ 1 / 2 ∧
    (∀ m : ℤ, rn (x * 255) = (m : ℚ) + 1 / 2 →
      cround (rn (x * 255)) = if 0 ≤ m then m + 1 else m) ∧
    (∀ g, pixelValue x = some g → 0 ≤ g ∧ g ≤ 255) ∧
    (x ≤ 0 → pixelValue x = some 0) ∧
    (1 ≤ x → pixelValue x = some 255) ∧
    (0 ≤ x → x ≤ 1 → pixelValue x = some (cround (rn (x * 255)))) ∧
    (∀ (P : Type) [DecidableEq P] (n : ℕ) (sCoords : Fin n → P) (u : Form n)
        (image : Image P) (index : Fin n), Function.Injective sCoords →
        (∀ j, -2147483648 ≤ u j * 255 ∧ u j * 255 ≤ 2147483647) → u index = x →
        ∃ m, PrimalForm0ToImage sCoords u image = some m ∧
          some (m.image (sCoords index)) = pixelValue x) ∧
    (∀ (P : Type) [DecidableEq P] (n : ℕ) (sKCoords : Fin n → P) (v : Form n)
        (image : Image P) (index : Fin n), Function.Injective sKCoords →
        (∀ j, -2147483648 ≤ v j * 255 ∧ v j * 255 ≤ 2147483647) → v index = x →
        ∃ m, PrimalForm1ToImage sKCoords v image = some m ∧
          some (m.image (sKCoords index)) = pixelValue x ∧
          ∀ p, (∀ j, sKCoords j ≠ p) → m.image p = 255) := by
  have hpix := pixelValue_eq x hlo hhi
  have hsize := abs_lt_of_int_range (x * 255) hlo hhi
  refine ⟨hpix, cround_near _, ?_, ?_, ?_, ?_, ?_, ?_, ?_⟩
  · intro m hm
    rw [hm]
    exact cround_half m
  · intro g hg
    rw [hpix] at hg
    have hg2 : max 0 (min 255 (cround (rn (x * 255)))) = g := Option.some.inj hg
    rw [← hg2]
    exact ⟨le_max_left _ _, max_le (by norm_num) (min_le_left _ _)⟩
  · intro hx
    have h0 : rn (x * 255) ≤ 0 := rn_nonpos _ (by linarith)
    have h1 : cround (rn (x * 255)) ≤ 0 := cround_le _ 0 (by push_cast; exact h0)
    rw [hpix, min_eq_right (le_trans h1 (by norm_num)), max_eq_left h1]
  · intro hx
    have h0 : ((255 : ℤ) : ℚ) ≤ rn (x * 255) := int_le_rn _ 255 hsize (by push_cast; linarith)
    have h1 : (255 : ℤ) ≤ cround (rn (x * 255)) := le_cround _ 255 h0
    rw [hpix, min_eq_left h1]
    rfl
  · intro hx0 hx1
    have h0 : (0 : ℚ) ≤ rn (x * 255) := rn_nonneg _ (by nlinarith)
    have h255 : rn (x * 255) ≤ ((255 : ℤ) : ℚ) :=
      rn_le_int _ 255 hsize (by push_cast; linarith)
    have h1 : (0 : ℤ) ≤ cround (rn (x * 255)) := le_cround _ 0 (by push_cast; exact h0)
    have h2 : cround (rn (x * 255)) ≤ (255 : ℤ) := cround_le _ 255 h255
    rw [hpix, min_eq_right h2, max_eq_right h1]
  · intro P _ n sCoords u image index hinj hrange hux
    obtain ⟨m, hm, hval⟩ := PrimalForm0ToImage_pixel sCoords u image hinj hrange index
    exact ⟨m, hm, by rw [hval, hpix, hux]⟩
  · intro P _ n sKCoords v image index hinj hrange hvx
    obtain ⟨m, hm, hval, hbg⟩ := PrimalForm1ToImage_pixel sKCoords v image hinj hrange index
    exact ⟨m, hm, by rw [hval, hpix, hvx], hbg⟩

/-- C5 (amended) at `x = 1/2`: the double product is 127.5 exactly and is rounded
away from zero to 128. -/
theorem C5_pixel_scaling_witness :
    pixelValue (1 / 2) = some (cround (rn (1 / 2 * 255))) ∧ cround (rn (1 / 2 * 255)) = 128 :=
  ⟨(C5_pixel_scaling (1 / 2) (by norm_num) (by norm_num)).2.2.2.2.2.2.1 (by norm_num)
    (by norm_num), by
      have hr := rn_of_dyadic 255 1 (by norm_num) (by norm_num)
      have h := cround_half 127
      norm_num at h hr
      have h2 : (1 : ℚ) / 2 * 255 = 255 / 2 := by norm_num
      rw [h2, hr]
      exact h⟩

/-! ## Operators and energies -/

/-- Overwriting the diagonal of the identity gives a diagonal operator: every
off-diagonal entry is 0. -/
theorem setDiagonal_one {n : ℕ} (d : Form n) :
    setDiagonal (1 : LinOp n n) d = Matrix.diagonal d := by
  ext i j
  by_cases hij : i = j
  · subst hij
    simp [setDiagonal]
  · simp [setDiagonal, hij, Matrix.diagonal_apply_ne, Matrix.one_apply_ne]

theorem Mv2_eq (v : Form n1) : Mv2 v = Matrix.diagonal (fun index => v index * v index) :=
  setDiagonal_one _

theorem Mw2_eq (w : Form n1) : Mw2 w = Matrix.diagonal (fun index => w index * w index) :=
  setDiagonal_one _

/-- A double loop `sum_i sum_j x_i M_ij y_j` is the pairing of `x` with `M y`. -/
theorem doubleSum_eq {m k : ℕ} (M : LinOp m k) (x : Form m) (y : Form k) :
    ∑ i, ∑ j, x i * M i j * y j = Matrix.dotProduct x (M.mulVec y) := by
  simp only [Matrix.dotProduct, Matrix.mulVec, Finset.mul_sum, mul_assoc]

theorem gradV2_eq (c : Calculus n0 n1 n2) (l eps : ℚ) (v : Form n1) :
    gradV2 c l eps v = l * eps * Matrix.dotProduct v ((tBB c).mulVec v) := by
  unfold gradV2
  rw [← doubleSum_eq, Finset.mul_sum]
  refine Finset.sum_congr rfl (fun i _ => ?_)
  rw [Finset.mul_sum]
  exact Finset.sum_congr rfl (fun j _ => by ring)

theorem twoPixel_duality : UnitGridDuality twoPixel := by
  constructor
  · ext i j
    fin_cases i <;> fin_cases j <;> simp [twoPixel]
  · ext i j
    exact j.elim0

/-- The pairing of `x` with `(Aᵀ A) x` is a sum of squares. -/
theorem pairing_gram_nonneg {m k : ℕ} (A : LinOp m k) (x : Form k) :
    0 ≤ Matrix.dotProduct x ((A.transpose * A).mulVec x) := by
  rw [← Matrix.mulVec_mulVec, Matrix.dotProduct_mulVec, Matrix.vecMul_transpose]
  exact Finset.sum_nonneg (fun i _ => mul_self_nonneg _)

/-- Under the unit-grid duality the diffusion operator of the energy block is
`D0ᵀ diag(v²) D0`. -/
theorem Av2A_energy_eq (c : Calculus n0 n1 n2) (hc : UnitGridDuality c) (v : Form n1) :
    Av2A_energy c v =
      c.primal_D0.transpose * Matrix.diagonal (fun index => v index * v index) * c.primal_D0 := by
  unfold Av2A_energy
  rw [Mv2_eq, Matrix.smul_mul, Matrix.smul_mul, hc.1]
  simp

/-- Under the unit-grid duality `tBB` is `D0 D0ᵀ + D1ᵀ D1`. -/
theorem tBB_eq (c : Calculus n0 n1 n2) (hc : UnitGridDuality c) :
    tBB c = c.primal_D0 * c.primal_D0.transpose + c.primal_D1.transpose * c.primal_D1 := by
  unfold tBB
  have h1 : c.primal_D0 * c.dual_h2 * c.dual_D1 * c.primal_h1 =
      c.primal_D0 * (c.dual_h2 * c.dual_D1 * c.primal_h1) := by
    simp only [Matrix.mul_assoc]
  rw [h1, hc.1, hc.2]
  simp

theorem V2gradU2_eq (c : Calculus n0 n1 n2) (hc : UnitGridDuality c) (u : Form n0)
    (v : Form n1) :
    V2gradU2 c u v = ∑ index, (v index * c.primal_D0.mulVec u index) *
      (v index * c.primal_D0.mulVec u index) := by
  unfold V2gradU2
  rw [doubleSum_eq, Av2A_energy_eq c hc, ← Matrix.mulVec_mulVec, ← Matrix.mulVec_mulVec,
    Matrix.dotProduct_mulVec, Matrix.vecMul_transpose]
  simp only [Matrix.dotProduct, Matrix.mulVec_diagonal]
  exact Finset.sum_congr rfl (fun i _ => by ring)

theorem V2gradU2_nonneg (c : Calculus n0 n1 n2) (hc : UnitGridDuality c) (u : Form n0)
    (v : Form n1) : 0 ≤ V2gradU2 c u v := by
  rw [V2gradU2_eq c hc]
  exact Finset.sum_nonneg (fun i _ => mul_self_nonneg _)

theorem tBB_pairing_nonneg (c : Calculus n0 n1 n2) (hc : UnitGridDuality c) (v : Form n1) :
    0 ≤ Matrix.dotProduct v ((tBB c).mulVec v) := by
  rw [tBB_eq c hc, Matrix.add_mulVec, Matrix.dotProduct_add]
  have h1 := pairing_gram_nonneg c.primal_D0.transpose v
  have h2 := pairing_gram_nonneg c.primal_D1 v
  rw [Matrix.transpose_transpose] at h1
  exact add_nonneg h1 h2

theorem UmG2_nonneg (a : ℚ) (ha : 0 ≤ a) (u g : Form n0) : 0 ≤ UmG2 a u g := by
  unfold UmG2
  refine Finset.sum_nonneg (fun i _ => ?_)
  rw [mul_assoc]
  exact mul_nonneg ha (mul_self_nonneg _)

theorem Vm12_nonneg (l eps : ℚ) (hl : 0 ≤ l) (heps : 0 < eps) (v : Form n1) :
    0 ≤ Vm12 l eps v := by
  unfold Vm12
  refine Finset.sum_nonneg (fun i _ => ?_)
  have h1 : 1 - 2 * v i + v i * v i = (1 - v i) * (1 - v i) := by ring
  rw [h1]
  exact mul_nonneg (div_nonneg hl (by linarith)) (mul_self_nonneg _)

/-! ### The energy block in doubles -/

/-- The complex of the 2x2 image, which has a face, satisfies both halves of the
duality. -/
theorem fourPixel_duality : UnitGridDuality fourPixel := by
  unfold UnitGridDuality
  simp only [fourPixel, Matrix.one_mul, Matrix.mul_one, Matrix.neg_mul]
  constructor
  · ext i j
    fin_cases i <;> fin_cases j <;> rfl
  · ext i j
    fin_cases i <;> fin_cases j <;> rfl

/-- On the complex of the 2x2 image the boundary of a boundary vanishes. -/
theorem fourPixel_boundary : fourPixel.primal_D1 * fourPixel.primal_D0 = 0 := by
  ext i j
  fin_cases i
  fin_cases j <;> simp [fourPixel, Matrix.mul_apply, Fin.sum_univ_succ]

/-- An accumulation in doubles of non-negative terms from a non-negative start is
non-negative. -/
theorem foldl_rn_nonneg {ι : Type} (t : ι → ℚ) (ht : ∀ i, 0 ≤ t i) :
    ∀ (L : List ι) (acc : ℚ), 0 ≤ acc → 0 ≤ L.foldl (fun acc i => rn (acc + t i)) acc := by
  intro L
  induction L with
  | nil => intro acc h; exact h
  | cons i L ih =>
    intro acc h
    exact ih _ (rn_nonneg _ (add_nonneg h (ht i)))

/-- The fidelity term of one cell, as computed, is non-negative. -/
theorem fidelity_term_nonneg (a : ℚ) (ha : 0 ≤ a) (d : ℚ) : 0 ≤ rn (rn (a * d) * d) := by
  apply rn_nonneg
  rcases le_total 0 d with hd | hd
  · exact mul_nonneg (rn_nonneg _ (mul_nonneg ha hd)) hd
  · exact mul_nonneg_of_nonpos_of_nonpos (rn_nonpos _ (mul_nonpos_of_nonneg_of_nonpos ha hd)) hd

theorem UmG2_double_nonneg (a : ℚ) (ha : 0 ≤ a) (u g : Form n0) : 0 ≤ UmG2_double a u g :=
  foldl_rn_nonneg (fun index => rn (rn (a * rn (u index - g index)) * rn (u index - g index)))
    (fun _ => fidelity_term_nonneg a ha _) _ 0 le_rfl

/-- For a double `v` the factor `1 - 2*v + v*v`, as computed, is non-negative:
`2*v` is exact, `v*v ≥ 2*v - 1` and rounding is monotone and odd. -/
theorem penalty_factor_nonneg (v : ℚ) (hv : rn v = v) :
    0 ≤ rn (rn (1 - rn (2 * v)) + rn (v * v)) := by
  apply rn_nonneg
  rw [rn_two_mul v hv]
  have h1 : rn (2 * v - 1) ≤ rn (v * v) := rn_mono (by nlinarith [sq_nonneg (v - 1)])
  have h2 : rn (1 - 2 * v) = -rn (2 * v - 1) := by
    rw [← rn_neg]
    congr 1
    ring
  rw [h2]
  linarith

theorem Vm12_double_nonneg (l eps : ℚ) (hl : 0 ≤ l) (heps : 0 ≤ eps) (v : Form n1)
    (hv : ∀ index, rn (v index) = v index) : 0 ≤ Vm12_double l eps v :=
  foldl_rn_nonneg
    (fun index_i => rn (rn (l / rn (4 * eps))
      * rn (rn (1 - rn (2 * v index_i)) + rn (v index_i * v index_i))))
    (fun index_i => rn_nonneg _ (mul_nonneg
      (rn_nonneg _ (div_nonneg hl (rn_nonneg _ (mul_nonneg (by norm_num) heps))))
      (penalty_factor_nonneg _ (hv index_i)))) _ 0 le_rfl

/-- A number `m / 2^j` with `|m| < 2^53` and `j ≤ 1074`, however it is written,
is left unchanged by `rn`. -/
theorem rn_dyadic (x : ℚ) (m : ℤ) (j : ℕ) (hm : |m| < 2 ^ 53) (hj : j ≤ 1074)
    (hx : x = (m : ℚ) / 2 ^ j) : rn x = x := by
  subst hx
  exact rn_of_dyadic m j hm hj

/-- Evaluation of `rn` at a number of binary exponent `e` that is nearer to
`m 2^(e-52)` than to any other multiple of `2^(e-52)`. -/
theorem rn_round (x : ℚ) (e m : ℤ) (he : -1022 ≤ e) (h1 : (2 : ℚ) ^ e ≤ |x|)
    (h2 : |x| < (2 : ℚ) ^ (e + 1)) (hm : |x / 2 ^ (e - 52) - m| < 1 / 2) :
    rn x = (m : ℚ) * 2 ^ (e - 52) :=
  rn_eval x (e - 52) m (ulpExp_eq x e he h1 h2) hm

/-- The operator of the diffusion energy on the two-pixel complex for `v = 1`. -/
theorem twoPixel_Av2A_energy_double :
    Av2A_energy_double twoPixel ![1] 0 0 = 1 ∧ Av2A_energy_double twoPixel ![1] 0 1 = -1 ∧
    Av2A_energy_double twoPixel ![1] 1 0 = -1 ∧ Av2A_energy_double twoPixel ![1] 1 1 = 1 := by
  have h1 : rn (1 : ℚ) = 1 := rn_dyadic _ 1 0 (by norm_num) (by norm_num) (by norm_num)
  have hM : Mv2_double (![1] : Form 1) = 1 := by
    ext i j
    fin_cases i
    fin_cases j
    simp [Mv2_double, setDiagonal, h1]
  simp [Av2A_energy_double, hM, twoPixel, Matrix.mul_apply]

/-- The accumulation of the diffusion term over two 0-cells, written out. -/
theorem V2gradU2_double_two {n1 n2 : ℕ} (c : Calculus 2 n1 n2) (x y : ℚ) (v : Form n1) :
    V2gradU2_double c ![x, y] v =
      rn (rn (rn (rn (0 + rn (rn (x * Av2A_energy_double c v 0 0) * x))
        + rn (rn (x * Av2A_energy_double c v 0 1) * y))
        + rn (rn (y * Av2A_energy_double c v 1 0) * x))
        + rn (rn (y * Av2A_energy_double c v 1 1) * y)) := by
  have hfin : List.finRange 2 = [0, 1] := rfl
  unfold V2gradU2_double
  rw [hfin]
  simp only [List.foldl_cons, List.foldl_nil, Matrix.cons_val_zero, Matrix.cons_val_one,
    Matrix.head_cons]

/-- The diffusion term that the energy block computes on the two-pixel complex
for `u = (1 - 3/2^29, 1 - 3/2^28)` and `v = 1`. -/
theorem twoPixel_V2gradU2_double :
    V2gradU2_double twoPixel ![536870909 / 536870912, 268435453 / 268435456] ![1]
      = -1 / 9007199254740992 := by
  obtain ⟨hA00, hA01, hA10, hA11⟩ := twoPixel_Av2A_energy_double
  have s1 : rn ((536870909 / 536870912) * 1) = (536870909 / 536870912) := by
    rw [rn_dyadic _ (536870909) 29 (by norm_num) (by norm_num) (by norm_num)]
    norm_num
  have s2 : rn ((536870909 / 536870912) * (536870909 / 536870912)) = (268435453 / 268435456) := by
    rw [rn_round _ (-1) (9007199154077696) (by norm_num) (by norm_num [abs_of_pos, abs_of_neg]) (by norm_num [abs_of_pos, abs_of_neg]) (by norm_num [abs_lt])]
    norm_num
  have s3 : rn (0 + (268435453 / 268435456)) = (268435453 / 268435456) := by
    rw [rn_dyadic _ (268435453) 28 (by norm_num) (by norm_num) (by norm_num)]
    norm_num
  have s4 : rn ((536870909 / 536870912) * (-1)) = (-536870909 / 536870912) := by
    rw [rn_dyadic _ (-536870909) 29 (by norm_num) (by norm_num) (by norm_num)]
    norm_num
  have s5 : rn ((-536870909 / 536870912) * (268435453 / 268435456)) = (-9007199103746049 / 9007199254740992) := by
    rw [rn_round _ (-1) (-9007199103746049) (by norm_num) (by norm_num [abs_of_pos, abs_of_neg]) (by norm_num [abs_of_pos, abs_of_neg]) (by norm_num [abs_lt])]
    norm_num
  have s6 : rn ((268435453 / 268435456) + (-9007199103746049 / 9007199254740992)) = (50331647 / 9007199254740992) := by
    rw [rn_dyadic _ (50331647) 53 (by norm_num) (by norm_num) (by norm_num)]
    norm_num
  have s7 : rn ((268435453 / 268435456) * (-1)) = (-268435453 / 268435456) := by
    rw [rn_dyadic _ (-268435453) 28 (by norm_num) (by norm_num) (by norm_num)]
    norm_num
  have s8 : rn ((-268435453 / 268435456) * (536870909 / 536870912)) = (-9007199103746049 / 9007199254740992) := by
    rw [rn_round _ (-1) (-9007199103746049) (by norm_num) (by norm_num [abs_of_pos, abs_of_neg]) (by norm_num [abs_of_pos, abs_of_neg]) (by norm_num [abs_lt])]
    norm_num
  have s9 : rn ((50331647 / 9007199254740992) + (-9007199103746049 / 9007199254740992)) = (-4503599526707201 / 4503599627370496) := by
    rw [rn_dyadic _ (-4503599526707201) 52 (by norm_num) (by norm_num) (by norm_num)]
    norm_num
  have s10 : rn ((268435453 / 268435456) * 1) = (268435453 / 268435456) := by
    rw [rn_dyadic _ (268435453) 28 (by norm_num) (by norm_num) (by norm_num)]
    norm_num
  have s11 : rn ((268435453 / 268435456) * (268435453 / 268435456)) = (9007199053414401 / 9007199254740992) := by
    rw [rn_round _ (-1) (9007199053414401) (by norm_num) (by norm_num [abs_of_pos, abs_of_neg]) (by norm_num [abs_of_pos, abs_of_neg]) (by norm_num [abs_lt])]
    norm_num
  have s12 : rn ((-4503599526707201 / 4503599627370496) + (9007199053414401 / 9007199254740992)) = (-1 / 9007199254740992) := by
    rw [rn_dyadic _ (-1) 53 (by norm_num) (by norm_num) (by norm_num)]
    norm_num
  rw [V2gradU2_double_two, hA00, hA01, hA10, hA11, s1, s2, s3, s4, s5, s6, s7, s8, s9, s10, s11, s12]

/-- The accumulation of the fidelity term over two 0-cells, written out. -/
theorem UmG2_double_two (a x y g0 g1 : ℚ) :
    UmG2_double a ![x, y] ![g0, g1] =
      rn (rn (0 + rn (rn (a * rn (x - g0)) * rn (x - g0)))
        + rn (rn (a * rn (y - g1)) * rn (y - g1))) := by
  have hfin : List.finRange 2 = [0, 1] := rfl
  unfold UmG2_double
  rw [hfin]
  simp only [List.foldl_cons, List.foldl_nil, Matrix.cons_val_zero, Matrix.cons_val_one,
    Matrix.head_cons]

/-- The accumulation of the edge-smoothness term over one 1-cell, written out. -/
theorem gradV2_double_one {n0 n2 : ℕ} (c : Calculus n0 1 n2) (l eps x : ℚ) :
    gradV2_double c l eps ![x] = rn (0 + rn (rn (rn (rn (l * eps) * x) * tBB c 0 0) * x)) := by
  have hfin : List.finRange 1 = [0] := rfl
  unfold gradV2_double
  rw [hfin]
  simp only [List.foldl_cons, List.foldl_nil, Matrix.cons_val_zero]

/-- The accumulation of the edge-penalty term over one 1-cell, written out. -/
theorem Vm12_double_one (l eps x : ℚ) :
    Vm12_double l eps (![x] : Form 1) =
      rn (0 + rn (rn (l / rn (4 * eps)) * rn (rn (1 - rn (2 * x)) + rn (x * x)))) := by
  have hfin : List.finRange 1 = [0] := rfl
  unfold Vm12_double
  rw [hfin]
  simp only [List.foldl_cons, List.foldl_nil, Matrix.cons_val_zero]

theorem twoPixel_tBB : tBB twoPixel 0 0 = 2 := by
  simp [tBB, twoPixel, Matrix.mul_apply]
  norm_num

/-- The fidelity term computed for `a = 2^(-20)`, `u = (1 - 3/2^29, 1 - 3/2^28)`
and `g = (1, 1)`. -/
theorem twoPixel_UmG2_double :
    UmG2_double (1 / 1048576) ![536870909 / 536870912, 268435453 / 268435456] ![1, 1]
      = 45 / 302231454903657293676544 := by
  have s13 : rn ((536870909 / 536870912) - 1) = (-3 / 536870912) := by
    rw [rn_dyadic _ (-3) 29 (by norm_num) (by norm_num) (by norm_num)]
    norm_num
  have s14 : rn ((1 / 1048576) * (-3 / 536870912)) = (-3 / 562949953421312) := by
    rw [rn_dyadic _ (-3) 49 (by norm_num) (by norm_num) (by norm_num)]
    norm_num
  have s15 : rn ((-3 / 562949953421312) * (-3 / 536870912)) = (9 / 302231454903657293676544) := by
    rw [rn_dyadic _ (9) 78 (by norm_num) (by norm_num) (by norm_num)]
    norm_num
  have s16 : rn (0 + (9 / 302231454903657293676544)) = (9 / 302231454903657293676544) := by
    rw [rn_dyadic _ (9) 78 (by norm_num) (by norm_num) (by norm_num)]
    norm_num
  have s17 : rn ((268435453 / 268435456) - 1) = (-3 / 268435456) := by
    rw [rn_dyadic _ (-3) 28 (by norm_num) (by norm_num) (by norm_num)]
    norm_num
  have s18 : rn ((1 / 1048576) * (-3 / 268435456)) = (-3 / 281474976710656) := by
    rw [rn_dyadic _ (-3) 48 (by norm_num) (by norm_num) (by norm_num)]
    norm_num
  have s19 : rn ((-3 / 281474976710656) * (-3 / 268435456)) = (9 / 75557863725914323419136) := by
    rw [rn_dyadic _ (9) 76 (by norm_num) (by norm_num) (by norm_num)]
    norm_num
  have s20 : rn ((9 / 302231454903657293676544) + (9 / 75557863725914323419136)) = (45 / 302231454903657293676544) := by
    rw [rn_dyadic _ (45) 78 (by norm_num) (by norm_num) (by norm_num)]
    norm_num
  rw [UmG2_double_two, s13, s14, s15, s16, s17, s18, s19, s20]

/-- The edge-smoothness term computed on the two-pixel complex for `l = 2^(-60)`,
`eps = 1` and `v = 1`. -/
theorem twoPixel_gradV2_double :
    gradV2_double twoPixel (1 / 1152921504606846976) 1 ![1] = 1 / 576460752303423488 := by
  have s21 : rn ((1 / 1152921504606846976) * 1) = (1 / 1152921504606846976) := by
    rw [rn_dyadic _ (1) 60 (by norm_num) (by norm_num) (by norm_num)]
    norm_num
  have s22 : rn ((1 / 1152921504606846976) * 1) = (1 / 1152921504606846976) := by
    rw [rn_dyadic _ (1) 60 (by norm_num) (by norm_num) (by norm_num)]
    norm_num
  have s23 : rn ((1 / 1152921504606846976) * 2) = (1 / 576460752303423488) := by
    rw [rn_dyadic _ (1) 59 (by norm_num) (by norm_num) (by norm_num)]
    norm_num
  have s24 : rn ((1 / 576460752303423488) * 1) = (1 / 576460752303423488) := by
    rw [rn_dyadic _ (1) 59 (by norm_num) (by norm_num) (by norm_num)]
    norm_num
  have s25 : rn (0 + (1 / 576460752303423488)) = (1 / 576460752303423488) := by
    rw [rn_dyadic _ (1) 59 (by norm_num) (by norm_num) (by norm_num)]
    norm_num
  rw [gradV2_double_one, twoPixel_tBB, s21, s22, s23, s24, s25]

/-- The edge-penalty term computed for `l = 2^(-60)`, `eps = 1` and `v = 1`. -/
theorem twoPixel_Vm12_double :
    Vm12_double (1 / 1152921504606846976) 1 (![1] : Form 1) = 0 := by
  have s26 : rn (4 * 1) = 4 := by
    rw [rn_dyadic _ (4) 0 (by norm_num) (by norm_num) (by norm_num)]
    norm_num
  have s27 : rn ((1 / 1152921504606846976) / 4) = (1 / 4611686018427387904) := by
    rw [rn_dyadic _ (1) 62 (by norm_num) (by norm_num) (by norm_num)]
    norm_num
  have s28 : rn (2 * 1) = 2 := by
    rw [rn_dyadic _ (2) 0 (by norm_num) (by norm_num) (by norm_num)]
    norm_num
  have s29 : rn (1 - 2) = (-1) := by
    rw [rn_dyadic _ (-1) 0 (by norm_num) (by norm_num) (by norm_num)]
    norm_num
  have s30 : rn (1 * 1) = 1 := by
    rw [rn_dyadic _ (1) 0 (by norm_num) (by norm_num) (by norm_num)]
    norm_num
  have s31 : rn ((-1) + 1) = 0 := by
    rw [rn_dyadic _ (0) 0 (by norm_num) (by norm_num) (by norm_num)]
    norm_num
  have s32 : rn ((1 / 4611686018427387904) * 0) = 0 := by
    rw [rn_dyadic _ (0) 0 (by norm_num) (by norm_num) (by norm_num)]
    norm_num
  have s33 : rn (0 + 0) = 0 := by
    rw [rn_dyadic _ (0) 0 (by norm_num) (by norm_num) (by norm_num)]
    norm_num
  rw [Vm12_double_one, s26, s27, s28, s29, s30, s31, s32, s33]

/-- The total computed from these four terms for `h = 1`. -/
theorem twoPixel_ATtot_double :
    ATtot_double twoPixel (1 / 1048576) 1 (1 / 1152921504606846976) 1
        ![536870909 / 536870912, 268435453 / 268435456] ![1, 1] ![1]
      = -33030099 / 302231454903657293676544 := by
  have s34 : rn (1 * 1) = 1 := by
    rw [rn_dyadic _ (1) 0 (by norm_num) (by norm_num) (by norm_num)]
    norm_num
  have s35 : rn (1 * (45 / 302231454903657293676544)) = (45 / 302231454903657293676544) := by
    rw [rn_dyadic _ (45) 78 (by norm_num) (by norm_num) (by norm_num)]
    norm_num
  have s36 : rn (1 * (-1 / 9007199254740992)) = (-1 / 9007199254740992) := by
    rw [rn_dyadic _ (-1) 53 (by norm_num) (by norm_num) (by norm_num)]
    norm_num
  have s37 : rn ((45 / 302231454903657293676544) + (-1 / 9007199254740992)) = (-33554387 / 302231454903657293676544) := by
    rw [rn_dyadic _ (-33554387) 78 (by norm_num) (by norm_num) (by norm_num)]
    norm_num
  have s38 : rn (1 * (1 / 576460752303423488)) = (1 / 576460752303423488) := by
    rw [rn_dyadic _ (1) 59 (by norm_num) (by norm_num) (by norm_num)]
    norm_num
  have s39 : rn ((-33554387 / 302231454903657293676544) + (1 / 576460752303423488)) = (-33030099 / 302231454903657293676544) := by
    rw [rn_dyadic _ (-33030099) 78 (by norm_num) (by norm_num) (by norm_num)]
    norm_num
  have s40 : rn (1 * 0) = 0 := by
    rw [rn_dyadic _ (0) 0 (by norm_num) (by norm_num) (by norm_num)]
    norm_num
  have s41 : rn ((-33030099 / 302231454903657293676544) + 0) = (-33030099 / 302231454903657293676544) := by
    rw [rn_dyadic _ (-33030099) 78 (by norm_num) (by norm_num) (by norm_num)]
    norm_num

  unfold ATtot_double
  rw [twoPixel_UmG2_double, twoPixel_V2gradU2_double, twoPixel_gradV2_double,
    twoPixel_Vm12_double, s34, s35, s36, s37, s38, s39, s40, s41]

/-- The exact value of the diffusion sum on the two-pixel complex for `v = 1`. -/
theorem twoPixel_V2gradU2 (x y : ℚ) : V2gradU2 twoPixel ![x, y] ![1] = (x - y) * (x - y) := by
  rw [V2gradU2_eq twoPixel twoPixel_duality]
  simp [twoPixel, Matrix.mulVec, Matrix.dotProduct]
  ring

/-! ### C6 -/

/-- C6 (counterexample). On the two-pixel complex with `v = 1` and
`u = (1 - 3/2^29, 1 - 3/2^28)`, two doubles in `[0, 1]`, the diffusion term that
the energy block accumulates is `-2^(-53)`, below 0, while the exact value of
the sum is `9/2^58`. With `a = 2^(-20)`, `l = 2^(-60)`, `eps = h = 1` and the
white image `g = (1, 1)` the total `ATtot` computed from the four terms is
negative as well. -/
theorem C6_counterexample_negative_diffusion :
    V2gradU2_double twoPixel ![536870909 / 536870912, 268435453 / 268435456] ![1]
        = -1 / 9007199254740992 ∧
      V2gradU2_double twoPixel ![536870909 / 536870912, 268435453 / 268435456] ![1] < 0 ∧
      V2gradU2 twoPixel ![536870909 / 536870912, 268435453 / 268435456] ![1]
        = 9 / 288230376151711744 ∧
      ATtot_double twoPixel (1 / 1048576) 1 (1 / 1152921504606846976) 1
        ![536870909 / 536870912, 268435453 / 268435456] ![1, 1] ![1] < 0 := by
  refine ⟨twoPixel_V2gradU2_double, ?_, ?_, ?_⟩
  · rw [twoPixel_V2gradU2_double]
    norm_num
  · rw [twoPixel_V2gradU2]
    norm_num
  · rw [twoPixel_ATtot_double]
    norm_num

/-- C6 (amended). For all forms `u`, `g`, `v` and all `a, l, eps, h > 0`: the
fidelity term that the energy block computes in doubles is non-negative, and so
is the edge-penalty term when the entries of `v` are doubles. The exact values
of the fidelity and edge-penalty sums are non-negative; on a calculus with the
unit-grid duality (codifferentials minus the transposes of the derivatives) the
exact values of the diffusion and edge-smoothness sums are non-negative too, and
so is the exact total `h² UmG2 + h V2gradU2 + h gradV2 + h Vm12`. Nothing is said
of the sign of the diffusion term, the edge-smoothness term and the total as
accumulated in doubles. -/
theorem C6_energies_nonneg (c : Calculus n0 n1 n2) (a l eps h : ℚ) (ha : 0 < a) (hl : 0 < l)
    (heps : 0 < eps) (hh : 0 < h) (u g : Form n0) (v : Form n1) :
    0 ≤ UmG2_double a u g ∧
    ((∀ index, rn (v index) = v index) → 0 ≤ Vm12_double l eps v) ∧
    0 ≤ UmG2 a u g ∧
    0 ≤ Vm12 l eps v ∧
    ATtot c a h l eps u g v =
      h ^ 2 * UmG2 a u g + h * V2gradU2 c u v + h * gradV2 c l eps v + h * Vm12 l eps v ∧
    (UnitGridDuality c →
      0 ≤ V2gradU2 c u v ∧ 0 ≤ gradV2 c l eps v ∧ 0 ≤ ATtot c a h l eps u g v) := by
  have h1 := UmG2_nonneg a ha.le u g
  have h4 := Vm12_nonneg l eps hl.le heps v
  refine ⟨UmG2_double_nonneg a ha.le u g, fun hv => Vm12_double_nonneg l eps hl.le heps.le v hv,
    h1, h4, by unfold ATtot; ring, fun hc => ?_⟩
  have h2 := V2gradU2_nonneg c hc u v
  have h3 : 0 ≤ gradV2 c l eps v := by
    rw [gradV2_eq]
    exact mul_nonneg (mul_nonneg hl.le heps.le) (tBB_pairing_nonneg c hc v)
  refine ⟨h2, h3, ?_⟩
  unfold ATtot
  have := mul_nonneg (mul_nonneg hh.le hh.le) h1
  have := mul_nonneg hh.le h2
  have := mul_nonneg hh.le h3
  have := mul_nonneg hh.le h4
  linarith

/-- C6 (amended) on the complex of the 2x2 image (four pixels, four edges, one
face) with `a = 1`, `l = 1/16`, `eps = 1/2`, `h = 1`, `u = (1/4, 1/2, 3/4, 1)`,
`g = (0, 1, 0, 1)` and the doubles `v = (1/2, 1/4, 1, 3/4)`. -/
theorem C6_energies_nonneg_witness :
    0 ≤ UmG2_double 1 ![1 / 4, 1 / 2, 3 / 4, 1] ![0, 1, 0, 1] ∧
    0 ≤ Vm12_double (1 / 16) (1 / 2) ![1 / 2, 1 / 4, 1, 3 / 4] ∧
    0 ≤ UmG2 1 ![1 / 4, 1 / 2, 3 / 4, 1] ![0, 1, 0, 1] ∧
    0 ≤ Vm12 (1 / 16) (1 / 2) ![1 / 2, 1 / 4, 1, 3 / 4] ∧
    0 ≤ V2gradU2 fourPixel ![1 / 4, 1 / 2, 3 / 4, 1] ![1 / 2, 1 / 4, 1, 3 / 4] ∧
    0 ≤ gradV2 fourPixel (1 / 16) (1 / 2) ![1 / 2, 1 / 4, 1, 3 / 4] ∧
    0 ≤ ATtot fourPixel 1 1 (1 / 16) (1 / 2) ![1 / 4, 1 / 2, 3 / 4, 1] ![0, 1, 0, 1]
      ![1 / 2, 1 / 4, 1, 3 / 4] := by
  have hv : ∀ index : Fin 4, rn ((![1 / 2, 1 / 4, 1, 3 / 4] : Form 4) index)
      = (![1 / 2, 1 / 4, 1, 3 / 4] : Form 4) index := by
    intro index
    fin_cases index
    · exact rn_dyadic _ 1 1 (by norm_num) (by norm_num) (by norm_num)
    · exact rn_dyadic _ 1 2 (by norm_num) (by norm_num) (by norm_num)
    · exact rn_dyadic _ 1 0 (by norm_num) (by norm_num) (by norm_num)
    · exact rn_dyadic _ 3 2 (by norm_num) (by norm_num) (by norm_num)
  obtain ⟨h1, h2, h3, h4, -, h6⟩ := C6_energies_nonneg fourPixel 1 (1 / 16) (1 / 2) 1
    (by norm_num) (by norm_num) (by norm_num) (by norm_num) ![1 / 4, 1 / 2, 3 / 4, 1]
    ![0, 1, 0, 1] ![1 / 2, 1 / 4, 1, 3 / 4]
  obtain ⟨h7, h8, h9⟩ := h6 fourPixel_duality
  exact ⟨h1, h2 hv, h3, h4, h7, h8, h9⟩
/-! ## The u-system -/

theorem annealLoop_break (c : Calculus n0 n1 n2) (S : Solvers n0 n1) (a h l : ℚ) (n : ℤ)
    (ag : Form n0) (k : ℕ) (eps : ℚ) (s : Fields n0 n1) (hlt : rn (eps / 2) < rn (h * h)) :
    annealLoop c S a h l n ag (k + 1) eps s = ⟨eps, s, []⟩ := by
  simp only [annealLoop, hlt, if_true]

theorem annealLoop_step (c : Calculus n0 n1 n2) (S : Solvers n0 n1) (a h l : ℚ) (n : ℤ)
    (ag : Form n0) (k : ℕ) (eps : ℚ) (s : Fields n0 n1) (hge : ¬ rn (eps / 2) < rn (h * h)) :
    annealLoop c S a h l n ag (k + 1) eps s =
      ⟨(annealLoop c S a h l n ag k (rn (eps / 2))
          (cdLoop c S a h l (rn (eps / 2)) ag (BB c l (rn (eps / 2))) n.toNat s).1).eps,
        (annealLoop c S a h l n ag k (rn (eps / 2))
          (cdLoop c S a h l (rn (eps / 2)) ag (BB c l (rn (eps / 2))) n.toNat s).1).fields,
        (rn (eps / 2), (cdLoop c S a h l (rn (eps / 2)) ag (BB c l (rn (eps / 2))) n.toNat s).2) ::
          (annealLoop c S a h l n ag k (rn (eps / 2))
            (cdLoop c S a h l (rn (eps / 2)) ag (BB c l (rn (eps / 2))) n.toNat s).1).log⟩ := by
  simp only [annealLoop, hge, if_false]

theorem epsAt_shift (eps0 : ℚ) : ∀ k, epsAt eps0 (k + 1) = epsAt (rn (eps0 / 2)) k := by
  intro k
  induction k with
  | zero => rfl
  | succ k ih =>
    show rn (epsAt eps0 (k + 1) / 2) = rn (epsAt (rn (eps0 / 2)) k / 2)
    rw [ih]

theorem annealFields_shift (c : Calculus n0 n1 n2) (S : Solvers n0 n1) (a h l : ℚ) (n : ℤ)
    (ag : Form n0) (eps0 : ℚ) (s : Fields n0 n1) :
    ∀ k, annealFields c S a h l n ag eps0 s (k + 1) =
      annealFields c S a h l n ag (rn (eps0 / 2))
        (cdLoop c S a h l (rn (eps0 / 2)) ag (BB c l (rn (eps0 / 2))) n.toNat s).1 k := by
  intro k
  induction k with
  | zero => rfl
  | succ k ih =>
    show (cdLoop c S a h l (epsAt eps0 (k + 2)) ag (BB c l (epsAt eps0 (k + 2))) n.toNat
      (annealFields c S a h l n ag eps0 s (k + 1))).1 = _
    rw [ih, epsAt_shift eps0 (k + 1)]
    rfl

/-- The annealing loop started with `steps` steps to go, the current value
`eps0` and the fields `s`, against the unbroken annealing: step `k` of the log
passed the test with `eps0` halved `k + 1` times and holds the log of the
coordinate descent run at that value from the fields left by step `k - 1`; a log
shorter than `steps` means the next value failed the test; the loop leaves the
last value used (or `eps0`) and the fields of the last descent (or `s`). -/
theorem annealLoop_spec (c : Calculus n0 n1 n2) (S : Solvers n0 n1) (a h l : ℚ) (n : ℤ)
    (ag : Form n0) :
    ∀ (steps : ℕ) (eps0 : ℚ) (s : Fields n0 n1),
      (annealLoop c S a h l n ag steps eps0 s).log.length ≤ steps ∧
      (∀ k, k < (annealLoop c S a h l n ag steps eps0 s).log.length →
        ¬ epsAt eps0 (k + 1) < rn (h * h) ∧
        (annealLoop c S a h l n ag steps eps0 s).log[k]? =
          some (epsAt eps0 (k + 1),
            (cdLoop c S a h l (epsAt eps0 (k + 1)) ag (BB c l (epsAt eps0 (k + 1))) n.toNat
              (annealFields c S a h l n ag eps0 s k)).2)) ∧
      ((annealLoop c S a h l n ag steps eps0 s).log.length < steps →
        epsAt eps0 ((annealLoop c S a h l n ag steps eps0 s).log.length + 1) < rn (h * h)) ∧
      (annealLoop c S a h l n ag steps eps0 s).eps =
        epsAt eps0 (annealLoop c S a h l n ag steps eps0 s).log.length ∧
      (annealLoop c S a h l n ag steps eps0 s).fields =
        annealFields c S a h l n ag eps0 s
          (annealLoop c S a h l n ag steps eps0 s).log.length := by
  intro steps
  induction steps with
  | zero =>
    intro eps0 s
    refine ⟨le_rfl, ?_, ?_, rfl, rfl⟩
    · intro k hk; exact absurd hk (Nat.not_lt_zero k)
    · intro hk; exact absurd hk (Nat.not_lt_zero _)
  | succ m ih =>
    intro eps0 s
    by_cases hlt : rn (eps0 / 2) < rn (h * h)
    · rw [annealLoop_break c S a h l n ag m eps0 s hlt]
      refine ⟨Nat.zero_le _, ?_, ?_, rfl, rfl⟩
      · intro k hk; exact absurd hk (Nat.not_lt_zero k)
      · intro _; exact hlt
    · rw [annealLoop_step c S a h l n ag m eps0 s hlt]
      obtain ⟨h1, h2, h3, h4, h5⟩ := ih (rn (eps0 / 2))
        (cdLoop c S a h l (rn (eps0 / 2)) ag (BB c l (rn (eps0 / 2))) n.toNat s).1
      refine ⟨by simpa using h1, ?_, ?_, ?_, ?_⟩
      · intro k hk
        cases k with
        | zero =>
          refine ⟨hlt, ?_⟩
          show (_ :: _)[0]? = _
          rw [List.getElem?_cons_zero]
          rfl
        | succ k =>
          simp only [List.length_cons, Nat.succ_lt_succ_iff] at hk
          obtain ⟨hge, hlog⟩ := h2 k hk
          rw [epsAt_shift eps0 (k + 1), annealFields_shift]
          refine ⟨hge, ?_⟩
          show (_ :: _)[k + 1]? = _
          rw [List.getElem?_cons_succ]
          exact hlog
      · intro hk
        simp only [List.length_cons, Nat.succ_lt_succ_iff] at hk
        simp only [List.length_cons]
        rw [epsAt_shift]
        exact h3 hk
      · simp only [List.length_cons]
        rw [epsAt_shift]
        exact h4
      · simp only [List.length_cons]
        rw [annealFields_shift]
        exact h5

/-- When doubling `e` and the first `k + 1` halvings are exact, the value used by
step `k` is `e / 2^k`. -/
theorem epsAt_exact (e : ℚ) (hdouble : rn (2 * e) = 2 * e) :
    ∀ k, (∀ j, j ≤ k → rn (e / 2 ^ j) = e / 2 ^ j) → epsAt (rn (2 * e)) (k + 1) = e / 2 ^ k := by
  intro k
  induction k with
  | zero =>
    intro hex
    show rn (rn (2 * e) / 2) = _
    have h0 := hex 0 le_rfl
    simp only [pow_zero, div_one] at h0 ⊢
    rw [hdouble, mul_div_cancel_left₀ _ (two_ne_zero), h0]
  | succ k ih =>
    intro hex
    show rn (epsAt (rn (2 * e)) (k + 1) / 2) = _
    rw [ih (fun j hj => hex j (by omega)), div_div, ← pow_succ]
    exact hex (k + 1) le_rfl

/-- Doubles met in the examples. -/
theorem rn_small_values :
    rn (2 * 1) = 2 ∧ rn (2 / 2) = 1 ∧ rn (2 * 2) = 4 ∧ rn (1 * 1) = 1 ∧ rn (1 / 2) = 1 / 2 := by
  have h1 := rn_intCast 1 (by norm_num)
  have h2 := rn_intCast 2 (by norm_num)
  have h4 := rn_intCast 4 (by norm_num)
  have hhalf := rn_of_dyadic 1 1 (by norm_num) (by norm_num)
  norm_num at h1 h2 h4 hhalf ⊢
  exact ⟨h2, h1, h4, h1, hhalf⟩

/-! ### C8 -/

/-- C8 (counterexample). With `e = 1`, `h = 2` and `n = 10` on the two-pixel
image, the first test `eps/2 = 1 < h*h = 4` ends the annealing at once: no
coordinate descent is run at all (not even with `eps = e`), the fields are
untouched and `eps` is left at `2 e`. -/
theorem C8_counterexample_no_descent_below_h2 :
    annealLoop twoPixel (exactSolvers 2 1) 1 2 (1 / 20) 10 ((1 : ℚ) • inputForm twoPixelEnv)
        5 (rn (2 * 1)) ⟨(1 : ℚ) • inputForm twoPixelEnv, fun _ => 1⟩ =
      ⟨2, ⟨(1 : ℚ) • inputForm twoPixelEnv, fun _ => 1⟩, []⟩ := by
  obtain ⟨h2, h1, h4, -, -⟩ := rn_small_values
  rw [h2]
  exact annealLoop_break _ _ _ _ _ _ _ _ _ _ (by rw [h1, h4]; norm_num)

/-- C8 (amended). The annealing loop, entered with the double `2 e`, performs at
most 5 steps. The test is made before `eps` is halved, between doubles: step `k`
is run only if `eps_k`, the double `2 e` halved `k + 1` times, is not below the
double product `h*h`; step `k` then runs the coordinate descent with `eps_k`
(and `BB` built from it) on the fields left by step `k - 1` (the entry fields
for `k = 0`), and its log is kept. The loop stops at the first `k` whose `eps_k`
is below `h*h`, a value that is not used, or after 5 steps; it leaves the last
value used and the fields of the last descent. When the doubling and the
halvings are exact, `eps_k = e / 2^k`. When the first test fails nothing is run:
the fields are unchanged and `eps` stays `2 e`. -/
theorem C8_annealing_schedule (c : Calculus n0 n1 n2) (S : Solvers n0 n1) (a h l e : ℚ)
    (n : ℤ) (ag : Form n0) (s : Fields n0 n1) :
    (annealLoop c S a h l n ag 5 (rn (2 * e)) s).log.length ≤ 5 ∧
    (∀ k, k < (annealLoop c S a h l n ag 5 (rn (2 * e)) s).log.length →
      ¬ epsAt (rn (2 * e)) (k + 1) < rn (h * h) ∧
      (annealLoop c S a h l n ag 5 (rn (2 * e)) s).log[k]? =
        some (epsAt (rn (2 * e)) (k + 1),
          (cdLoop c S a h l (epsAt (rn (2 * e)) (k + 1)) ag
            (BB c l (epsAt (rn (2 * e)) (k + 1))) n.toNat
            (annealFields c S a h l n ag (rn (2 * e)) s k)).2)) ∧
    ((annealLoop c S a h l n ag 5 (rn (2 * e)) s).log.length < 5 →
      epsAt (rn (2 * e)) ((annealLoop c S a h l n ag 5 (rn (2 * e)) s).log.length + 1)
        < rn (h * h)) ∧
    (annealLoop c S a h l n ag 5 (rn (2 * e)) s).eps =
      epsAt (rn (2 * e)) (annealLoop c S a h l n ag 5 (rn (2 * e)) s).log.length ∧
    (annealLoop c S a h l n ag 5 (rn (2 * e)) s).fields =
      annealFields c S a h l n ag (rn (2 * e)) s
        (annealLoop c S a h l n ag 5 (rn (2 * e)) s).log.length ∧
    (∀ k, annealFields c S a h l n ag (rn (2 * e)) s (k + 1) =
      (cdLoop c S a h l (epsAt (rn (2 * e)) (k + 1)) ag
        (BB c l (epsAt (rn (2 * e)) (k + 1))) n.toNat
        (annealFields c S a h l n ag (rn (2 * e)) s k)).1) ∧
    annealFields c S a h l n ag (rn (2 * e)) s 0 = s ∧
    (∀ k, epsAt (rn (2 * e)) (k + 1) = rn (epsAt (rn (2 * e)) k / 2)) ∧
    epsAt (rn (2 * e)) 0 = rn (2 * e) ∧
    (rn (2 * e) = 2 * e → ∀ k, (∀ j, j ≤ k → rn (e / 2 ^ j) = e / 2 ^ j) →
      epsAt (rn (2 * e)) (k + 1) = e / 2 ^ k) ∧
    (¬ rn (rn (2 * e) / 2) < rn (h * h) →
      0 < (annealLoop c S a h l n ag 5 (rn (2 * e)) s).log.length) ∧
    (rn (rn (2 * e) / 2) < rn (h * h) →
      annealLoop c S a h l n ag 5 (rn (2 * e)) s = ⟨rn (2 * e), s, []⟩) := by
  obtain ⟨h1, h2, h3, h4, h5⟩ := annealLoop_spec c S a h l n ag 5 (rn (2 * e)) s
  refine ⟨h1, h2, h3, h4, h5, fun _ => rfl, rfl, fun _ => rfl, rfl,
    fun hd k hex => epsAt_exact e hd k hex, ?_, ?_⟩
  · intro hge
    rw [annealLoop_step c S a h l n ag 4 (rn (2 * e)) s hge]
    simp
  · intro hlt
    exact annealLoop_break c S a h l n ag 4 (rn (2 * e)) s hlt

/-! ## The two systems of a coordinate-descent pass -/

/-- The operator factorised for the v-solve when `BB` was built for `(l, eps)`:
besides `eps h lBB` and `h diag(w²)` it holds the identity term `h (l/(4 eps)) Id`. -/
theorem vSystem_eq (c : Calculus n0 n1 n2) (h l eps : ℚ) (w : Form n1) :
    vSystem h (BB c l eps) w =
      (eps * h) • lBB c l + (h * (l / (4 * eps))) • (1 : LinOp n1 n1)
        + h • Matrix.diagonal (fun index => w index ^ 2) := by
  have hsq : (fun index => w index * w index) = fun index => w index ^ 2 := by
    funext i
    exact (sq (w i)).symm
  unfold vSystem BB
  rw [Mw2_eq, hsq, smul_add, smul_smul, smul_smul, mul_comm h eps]

theorem rhs_v_eq (h l eps : ℚ) : (rhs_v h eps l : Form n1) = fun _ => h / eps * (l / 4) := by
  funext i
  simp only [rhs_v, l_4, Pi.smul_apply, smul_eq_mul]
  ring

/-- The operator factorised for the u-solve: the diffusion part carries the
factor `-h`. -/
theorem Av2A_eq (c : Calculus n0 n1 n2) (a h : ℚ) (v : Form n1) :
    Av2A c a h v =
      (-h) • (c.dual_h2 * c.dual_D1 * c.primal_h1 * Matrix.diagonal (fun index => v index ^ 2)
        * c.primal_D0) + (a * h ^ 2) • (1 : LinOp n0 n0) := by
  have hsq : (fun index => v index * v index) = fun index => v index ^ 2 := by
    funext i
    exact (sq (v i)).symm
  have h1 : -1 * h = -h := by ring
  have h2 : a * h * h = a * h ^ 2 := by ring
  unfold Av2A
  rw [Mv2_eq, hsq, Matrix.smul_mul, Matrix.smul_mul, Matrix.smul_mul, Matrix.smul_mul, h1, h2]

/-! ### C9 -/

/-- C9 (counterexample). On the two-pixel image with `a = h = l = eps = 1`, in
the first coordinate-descent pass the operator handed to the v-solver is not
`eps h lBB + h diag(w²)`: its entries on the diagonal are larger by
`h l / (4 eps) = 1/4`. -/
theorem C9_counterexample_identity_term :
    vSystem 1 (BB twoPixel 1 1)
        (twoPixel.primal_D0.mulVec (cdIteration twoPixel (exactSolvers 2 1) 1 1 1 1
          ((1 : ℚ) • inputForm twoPixelEnv) (BB twoPixel 1 1)
          ⟨(1 : ℚ) • inputForm twoPixelEnv, fun _ => 1⟩).1.u) ≠
      ((1 : ℚ) * 1) • lBB twoPixel 1 + (1 : ℚ) • Matrix.diagonal (fun index =>
        (twoPixel.primal_D0.mulVec (cdIteration twoPixel (exactSolvers 2 1) 1 1 1 1
          ((1 : ℚ) • inputForm twoPixelEnv) (BB twoPixel 1 1)
          ⟨(1 : ℚ) • inputForm twoPixelEnv, fun _ => 1⟩).1.u) index ^ 2) := by
  intro heq
  rw [vSystem_eq] at heq
  have h00 := congrFun (congrFun heq 0) 0
  simp only [Matrix.add_apply, Matrix.smul_apply, Matrix.one_apply_eq, smul_eq_mul] at h00
  norm_num at h00

/-- C9 (amended). In every coordinate-descent pass, with `u` the form just
solved and `w = primal_D0 u`, the operator handed to the v-solver is
`eps h lBB + h (l/(4 eps)) Id + h diag(w²)`, where
`lBB = -l (primal_D0 dual_h2 dual_D1 primal_h1 + dual_h1 dual_D0 primal_h2 primal_D1)`,
and the right-hand side is the constant 1-form with entries `(h/eps)(l/4)`. For
`w = 0` the system is `(eps h lBB + h (l/(4 eps)) Id) v = (h/eps)(l/4) 1`. -/
theorem C9_v_system (c : Calculus n0 n1 n2) (S : Solvers n0 n1) (a h l eps : ℚ)
    (ag : Form n0) (s : Fields n0 n1) :
    (cdIteration c S a h l eps ag (BB c l eps) s).1.v =
      S.solve_v
        ((eps * h) • lBB c l + (h * (l / (4 * eps))) • (1 : LinOp n1 n1)
          + h • Matrix.diagonal (fun index =>
            c.primal_D0.mulVec (cdIteration c S a h l eps ag (BB c l eps) s).1.u index ^ 2))
        (fun _ => h / eps * (l / 4)) ∧
    lBB c l = (-l) • (c.primal_D0 * c.dual_h2 * c.dual_D1 * c.primal_h1
      + c.dual_h1 * c.dual_D0 * c.primal_h2 * c.primal_D1) ∧
    (c.primal_D0.mulVec (cdIteration c S a h l eps ag (BB c l eps) s).1.u = 0 →
      (cdIteration c S a h l eps ag (BB c l eps) s).1.v =
        S.solve_v ((eps * h) • lBB c l + (h * (l / (4 * eps))) • (1 : LinOp n1 n1))
          (fun _ => h / eps * (l / 4))) := by
  have hv : (cdIteration c S a h l eps ag (BB c l eps) s).1.v =
      S.solve_v (vSystem h (BB c l eps)
        (c.primal_D0.mulVec (cdIteration c S a h l eps ag (BB c l eps) s).1.u))
        (rhs_v h eps l) := rfl
  refine ⟨?_, rfl, ?_⟩
  · rw [hv, vSystem_eq, rhs_v_eq]
  · intro hw
    rw [hv, vSystem_eq, rhs_v_eq, hw]
    have hz : Matrix.diagonal (fun index => (0 : Form n1) index ^ 2) = (0 : LinOp n1 n1) := by
      ext i j
      by_cases hij : i = j
      · subst hij
        simp
      · simp [Matrix.diagonal_apply_ne _ hij]
    rw [hz, smul_zero, add_zero]

/-! ### C10 -/

/-- C10 (counterexample). On the two-pixel complex with `a = h = 1` and `v = 1`
the operator of the u-system is not
`h (dual_h2 dual_D1 primal_h1 diag(v²) primal_D0) + a h² Id`: the code has 2 in
entry (0,0), the formula 0. -/
theorem C10_counterexample_sign :
    Av2A twoPixel 1 1 (fun _ => 1) ≠
      (1 : ℚ) • (twoPixel.dual_h2 * twoPixel.dual_D1 * twoPixel.primal_h1
        * Matrix.diagonal (fun _ => (1 : ℚ) ^ 2) * twoPixel.primal_D0)
        + ((1 : ℚ) * 1 ^ 2) • (1 : LinOp 2 2) := by
  intro heq
  rw [Av2A_eq] at heq
  have h00 := congrFun (congrFun heq 0) 0
  simp [twoPixel, Matrix.mul_apply, Fin.sum_univ_succ] at h00

/-- C10 (amended). In every coordinate-descent pass the operator handed to the
u-solver is `-h (dual_h2 dual_D1 primal_h1 diag(v²) primal_D0) + a h² Id0`,
where `diag(v²)` holds the squares of the current `v` on the diagonal and 0
elsewhere, and the right-hand side is `h² a g`. -/
theorem C10_u_system (c : Calculus n0 n1 n2) (S : Solvers n0 n1) (a h l eps : ℚ)
    (g : Form n0) (bb : LinOp n1 n1) (s : Fields n0 n1) :
    (cdIteration c S a h l eps (a • g) bb s).1.u =
      S.solve_u
        ((-h) • (c.dual_h2 * c.dual_D1 * c.primal_h1
          * Matrix.diagonal (fun index => s.v index ^ 2) * c.primal_D0)
          + (a * h ^ 2) • (1 : LinOp n0 n0))
        ((h ^ 2 * a) • g) ∧
    Mv2 s.v = Matrix.diagonal (fun index => s.v index ^ 2) ∧
    (∀ i j, i ≠ j → Mv2 s.v i j = 0) ∧ (∀ i, Mv2 s.v i i = s.v i ^ 2) := by
  have hu : (cdIteration c S a h l eps (a • g) bb s).1.u =
      S.solve_u (Av2A c a h s.v) (rhs_u h (a • g)) := rfl
  have hrhs : rhs_u h (a • g) = (h ^ 2 * a) • g := by
    have h1 : h * h * a = h ^ 2 * a := by ring
    unfold rhs_u
    rw [smul_smul, h1]
  have hM : Mv2 s.v = Matrix.diagonal (fun index => s.v index ^ 2) := by
    have hsq : (fun index => s.v index * s.v index) = fun index => s.v index ^ 2 := by
      funext i
      exact (sq (s.v i)).symm
    rw [Mv2_eq, hsq]
  refine ⟨by rw [hu, Av2A_eq, hrhs], hM, ?_, ?_⟩
  · intro i j hij
    rw [hM, Matrix.diagonal_apply_ne _ hij]
  · intro i
    rw [hM, Matrix.diagonal_apply_eq]


/-! ## The edge-smoothness energy -/

theorem cdLoop_one (c : Calculus n0 n1 n2) (S : Solvers n0 n1) (a h l eps : ℚ)
    (ag : Form n0) (bb : LinOp n1 n1) (s : Fields n0 n1) :
    (cdLoop c S a h l eps ag bb 1 s).1 = (cdIteration c S a h l eps ag bb s).1 := by
  by_cases hlt : (cdIteration c S a h l eps ag bb s).2 < 1 / 10000
  · rw [cdLoop_stop c S a h l eps ag bb 0 s hlt]
  · rw [cdLoop_continue c S a h l eps ag bb 0 s hlt]
    rfl

theorem inputForm_twoPixel : inputForm twoPixelEnv = ![0, 1] := by
  have h1 := rn_intCast 1 (by norm_num)
  norm_num at h1
  funext i
  fin_cases i
  · simp [inputForm, twoPixelEnv, Prod.ext_iff, rn_zero]
  · simp [inputForm, twoPixelEnv, h1]

theorem twoPixel_first_u :
    solveExact (Av2A twoPixel 1 1 (fun _ => 1)) (rhs_u 1 ((1 : ℚ) • ![0, 1]))
      = ![1 / 3, 2 / 3] := by
  funext i
  fin_cases i <;>
    simp [solveExact, Av2A, Mv2_eq, rhs_u, twoPixel, Matrix.det_fin_two, Matrix.adjugate_fin_two,
      Matrix.mulVec, Matrix.dotProduct, Fin.sum_univ_succ, Matrix.mul_apply] <;> norm_num

theorem twoPixel_first_v :
    solveExact (vSystem 1 (BB twoPixel 3 1) (twoPixel.primal_D0.mulVec ![1 / 3, 2 / 3]))
      (rhs_v 1 1 3) = ![27 / 247] := by
  funext i
  fin_cases i
  simp [solveExact, vSystem, BB, lBB, Mw2_eq, rhs_v, l_4, twoPixel, Matrix.det_unique,
    Matrix.adjugate_fin_one, Matrix.mulVec, Matrix.dotProduct, Fin.sum_univ_succ,
    Matrix.mul_apply]
  norm_num

theorem twoPixel_first_pass :
    (cdIteration twoPixel (exactSolvers 2 1) 1 1 3 1 ((1 : ℚ) • ![0, 1]) (BB twoPixel 3 1)
      ⟨(1 : ℚ) • ![0, 1], fun _ => 1⟩).1 = ⟨![1 / 3, 2 / 3], ![27 / 247]⟩ := by
  simp only [cdIteration, exactSolvers, twoPixel_first_u, twoPixel_first_v]

/-- The annealing of the two-pixel image for `l = 3`, `a = e = h = 1`, `n = 1`:
one step with `eps = 1`, one coordinate-descent pass, `v = 27/247` at exit. -/
theorem twoPixel_anneal :
    annealLoop twoPixel (exactSolvers 2 1) 1 1 3 1 ((1 : ℚ) • ![0, 1]) 5 (rn (2 * 1))
        ⟨(1 : ℚ) • ![0, 1], fun _ => 1⟩ =
      ⟨1, ⟨![1 / 3, 2 / 3], ![27 / 247]⟩,
        [(1, (cdLoop twoPixel (exactSolvers 2 1) 1 1 3 1 ((1 : ℚ) • ![0, 1]) (BB twoPixel 3 1) 1
          ⟨(1 : ℚ) • ![0, 1], fun _ => 1⟩).2)]⟩ := by
  obtain ⟨h2, h1, -, h11, hhalf⟩ := rn_small_values
  rw [h2, annealLoop_step _ _ _ _ _ _ _ _ _ _ (by rw [h1, h11]; norm_num), h1,
    annealLoop_break _ _ _ _ _ _ _ _ _ _ (by rw [hhalf, h11]; norm_num)]
  have hn : (1 : ℤ).toNat = 1 := rfl
  rw [hn, cdLoop_one, twoPixel_first_pass]

theorem lBB_eq_smul_tBB (c : Calculus n0 n1 n2) (l : ℚ) : lBB c l = l • tBB c := by
  unfold lBB tBB
  rw [smul_smul, mul_neg_one]

/-- The `eps` the annealing leaves is the one of the last step it ran. -/
theorem annealLoop_last (c : Calculus n0 n1 n2) (S : Solvers n0 n1) (a h l : ℚ) (n : ℤ)
    (ag : Form n0) (eps0 : ℚ) (s : Fields n0 n1) (last : ℚ × List ℚ)
    (hlast : (annealLoop c S a h l n ag 5 eps0 s).log.getLast? = some last) :
    last.1 = (annealLoop c S a h l n ag 5 eps0 s).eps := by
  obtain ⟨-, h2, -, h4, -⟩ := annealLoop_spec c S a h l n ag 5 eps0 s
  rcases Nat.eq_zero_or_pos (annealLoop c S a h l n ag 5 eps0 s).log.length with h0 | hpos
  · rw [List.length_eq_zero] at h0
    rw [h0] at hlast
    simp at hlast
  · obtain ⟨m, hm⟩ := Nat.exists_eq_succ_of_ne_zero (Nat.pos_iff_ne_zero.mp hpos)
    obtain ⟨-, hlog⟩ := h2 m (by omega)
    rw [List.getLast?_eq_getElem?, hm] at hlast
    simp only [Nat.succ_eq_add_one, Nat.add_sub_cancel] at hlast
    rw [hlog] at hlast
    rw [h4, hm, ← Option.some.inj hlast]

theorem twoPixel_lambdaBody :
    (lambdaBody twoPixelEnv 1 1 1 1 (inputForm twoPixelEnv) 3
        ⟨(1 : ℚ) • inputForm twoPixelEnv, fun _ => 1⟩).1.eps = 1 ∧
      (lambdaBody twoPixelEnv 1 1 1 1 (inputForm twoPixelEnv) 3
        ⟨(1 : ℚ) • inputForm twoPixelEnv, fun _ => 1⟩).2.v = ![27 / 247] ∧
      (lambdaBody twoPixelEnv 1 1 1 1 (inputForm twoPixelEnv) 3
        ⟨(1 : ℚ) • inputForm twoPixelEnv, fun _ => 1⟩).1.gradV2
        = gradV2 twoPixel 3 1 ![27 / 247] := by
  have hA : annealLoop twoPixelEnv.calculus twoPixelEnv.solver 1 1 3 1
      ((1 : ℚ) • inputForm twoPixelEnv) 5 (rn (2 * 1))
      ⟨(1 : ℚ) • inputForm twoPixelEnv, fun _ => 1⟩ =
      ⟨1, ⟨![1 / 3, 2 / 3], ![27 / 247]⟩,
        [(1, (cdLoop twoPixel (exactSolvers 2 1) 1 1 3 1 ((1 : ℚ) • ![0, 1]) (BB twoPixel 3 1) 1
          ⟨(1 : ℚ) • ![0, 1], fun _ => 1⟩).2)]⟩ := by
    rw [inputForm_twoPixel]
    exact twoPixel_anneal
  refine ⟨?_, ?_, ?_⟩
  · simp only [lambdaBody, hA]
  · simp only [lambdaBody, hA]
  · simp only [lambdaBody, hA]
    rfl

theorem twoPixel_gradV2 : gradV2 twoPixel 3 1 ![27 / 247] = 4374 / 61009 := by
  simp [gradV2, tBB, twoPixel, Matrix.mul_apply, Fin.sum_univ_succ]
  norm_num

/-! ### C11 -/

/-- C11 (counterexample). On the two-pixel image with `l = 3`, `a = e = h = 1`
and `n = 1` the lambda pass ends with `eps = 1` and `v = 27/247`; the
edge-smoothness energy of the energy block is `4374/61009`, while
`l eps vᵗ lBB v`, with `lBB = -l (...)` the operator of the v-system, is
`13122/61009`, three times as much. -/
theorem C11_counterexample_lambda_factor :
    (lambdaBody twoPixelEnv 1 1 1 1 (inputForm twoPixelEnv) 3
        ⟨(1 : ℚ) • inputForm twoPixelEnv, fun _ => 1⟩).1.gradV2 = 4374 / 61009 ∧
      3 * (lambdaBody twoPixelEnv 1 1 1 1 (inputForm twoPixelEnv) 3
          ⟨(1 : ℚ) • inputForm twoPixelEnv, fun _ => 1⟩).1.eps *
        Matrix.dotProduct
          (lambdaBody twoPixelEnv 1 1 1 1 (inputForm twoPixelEnv) 3
            ⟨(1 : ℚ) • inputForm twoPixelEnv, fun _ => 1⟩).2.v
          ((lBB twoPixel 3).mulVec
            (lambdaBody twoPixelEnv 1 1 1 1 (inputForm twoPixelEnv) 3
              ⟨(1 : ℚ) • inputForm twoPixelEnv, fun _ => 1⟩).2.v) = 13122 / 61009 := by
  obtain ⟨heps, hv, hg⟩ := twoPixel_lambdaBody
  refine ⟨by rw [hg, twoPixel_gradV2], ?_⟩
  rw [heps, hv, lBB_eq_smul_tBB, Matrix.smul_mulVec_assoc, Matrix.dotProduct_smul]
  have h1 := twoPixel_gradV2
  rw [gradV2_eq] at h1
  simp only [smul_eq_mul]
  linarith

/-- C11 (amended). The edge-smoothness energy of the energy block for a lambda
is `l eps vᵗ tBB v`, where `tBB = -(primal_D0 dual_h2 dual_D1 primal_h1 +
dual_h1 dual_D0 primal_h2 primal_D1)` carries no factor `l`; with
`lBB = -l (...) = l tBB`, the operator of the v-system, this is `eps vᵗ lBB v`.
Here `v` is the edge field left by the annealing for that lambda and `eps` the
value it leaves, which is the one of the last step that ran its coordinate
descent; such a step exists when the first test of the annealing passes. -/
theorem C11_edge_smoothness {P : Type} [DecidableEq P] (E : Env P n0 n1 n2) (a e h : ℚ)
    (n : ℤ) (g : Form n0) (l : ℚ) (s : Fields n0 n1) :
    (lambdaBody E a e h n g l s).2 =
      (annealLoop E.calculus E.solver a h l n (a • g) 5 (rn (2 * e)) s).fields ∧
    (lambdaBody E a e h n g l s).1.eps =
      (annealLoop E.calculus E.solver a h l n (a • g) 5 (rn (2 * e)) s).eps ∧
    (lambdaBody E a e h n g l s).1.gradV2 =
      l * (lambdaBody E a e h n g l s).1.eps *
        Matrix.dotProduct (lambdaBody E a e h n g l s).2.v
          ((tBB E.calculus).mulVec (lambdaBody E a e h n g l s).2.v) ∧
    tBB E.calculus = (-1 : ℚ) • (E.calculus.primal_D0 * E.calculus.dual_h2 * E.calculus.dual_D1
      * E.calculus.primal_h1
      + E.calculus.dual_h1 * E.calculus.dual_D0 * E.calculus.primal_h2 * E.calculus.primal_D1) ∧
    lBB E.calculus l = l • tBB E.calculus ∧
    (lambdaBody E a e h n g l s).1.gradV2 =
      (lambdaBody E a e h n g l s).1.eps *
        Matrix.dotProduct (lambdaBody E a e h n g l s).2.v
          ((lBB E.calculus l).mulVec (lambdaBody E a e h n g l s).2.v) ∧
    (∀ last, (annealLoop E.calculus E.solver a h l n (a • g) 5 (rn (2 * e)) s).log.getLast?
        = some last → last.1 = (lambdaBody E a e h n g l s).1.eps) ∧
    (¬ rn (rn (2 * e) / 2) < rn (h * h) →
      ∃ last, (annealLoop E.calculus E.solver a h l n (a • g) 5 (rn (2 * e)) s).log.getLast?
        = some last) := by
  have hval : (lambdaBody E a e h n g l s).1.gradV2 =
      l * (lambdaBody E a e h n g l s).1.eps *
        Matrix.dotProduct (lambdaBody E a e h n g l s).2.v
          ((tBB E.calculus).mulVec (lambdaBody E a e h n g l s).2.v) :=
    gradV2_eq E.calculus l _ _
  refine ⟨rfl, rfl, hval, rfl, lBB_eq_smul_tBB _ _, ?_, ?_, ?_⟩
  · rw [hval, lBB_eq_smul_tBB, Matrix.smul_mulVec_assoc, Matrix.dotProduct_smul, smul_eq_mul]
    ring
  · intro last hlast
    exact annealLoop_last E.calculus E.solver a h l n (a • g) (rn (2 * e)) s last hlast
  · intro hge
    rw [annealLoop_step E.calculus E.solver a h l n (a • g) 4 (rn (2 * e)) s hge]
    simp [List.getLast?_cons]

end AT
